import Mathlib

/-!
Verification of the VIF platform's agent execution core and orchestration
graph validator.

Text is modelled as `List Char` (Python `str`); `String` wrappers appear at
the interfaces that the agent loop uses.  The Python standard library's
`json` module (used by `_parse_json_output` and `Agent._execute_tool` via
`json.loads` / `json.dumps` / `JSONDecoder.raw_decode`) is modelled by an
executable serializer and recursive-descent parser over a `Json` value type;
numbers are modelled as integers (float literals, `NaN` and `Infinity` are
outside the model) and objects as key/value lists in serialization order.
-/

namespace VIF

/-- Whitespace characters stripped by Python `str.strip()` (the ASCII ones). -/
def pyWs (c : Char) : Bool :=
  c = ' ' || c = '\t' || c = '\n' || c = '\r' || c = Char.ofNat 11 || c = Char.ofNat 12

/-- Python `str.strip()`: drop `pyWs` characters from both ends. -/
def pyStrip (l : List Char) : List Char :=
  ((l.dropWhile pyWs).reverse.dropWhile pyWs).reverse

/-- Worker for `pySplitlines`; `acc` holds the current line reversed.  A
`\r\n` pair is one terminator, as in Python. -/
def splitlinesAux : List Char → List Char → List (List Char)
  | [], acc => if acc = [] then [] else [acc.reverse]
  | c :: rest, acc =>
    if c = '\r' then
      if rest.head? = some '\n' then acc.reverse :: splitlinesAux rest.tail []
      else acc.reverse :: splitlinesAux rest []
    else if c = '\n' then acc.reverse :: splitlinesAux rest []
    else splitlinesAux rest (c :: acc)
termination_by l _ => l.length
decreasing_by
  all_goals simp [List.length_tail]
  all_goals omega

/-- Python `str.splitlines()` restricted to the `\n`, `\r`, `\r\n` terminators
(the exotic unicode terminators are outside the model). -/
def pySplitlines (l : List Char) : List (List Char) :=
  splitlinesAux l []

/-- JSON values as Python's `json` module produces them, with numbers
restricted to integers and object members kept as an ordered list. -/
inductive Json where
  | null
  | bool (b : Bool)
  | num (n : Int)
  | str (s : List Char)
  | arr (elems : List Json)
  | obj (members : List (List Char × Json))

/-- Decimal digits of `n`, most significant first; `fuel` bounds the
recursion (any `fuel > n` is exact). -/
def natToCharsAux : Nat → Nat → List Char
  | 0, _ => []
  | fuel + 1, n =>
    if n < 10 then [Nat.digitChar n]
    else natToCharsAux fuel (n / 10) ++ [Nat.digitChar (n % 10)]

/-- Decimal representation of a natural number, as Python `str` prints it. -/
def natToChars (n : Nat) : List Char :=
  natToCharsAux (n + 1) n

/-- Decimal representation of an integer, as Python `str` / `json.dumps`
print it. -/
def intToChars (n : Int) : List Char :=
  if n < 0 then '-' :: natToChars n.natAbs else natToChars n.toNat

/-- JSON string escaping as Python `json.dumps` performs it: the short
escapes for quote, backslash and the common control characters, and
`\u00XX` for the remaining control characters. -/
def escChar (c : Char) : List Char :=
  if c = '"' then ['\\', '"']
  else if c = '\\' then ['\\', '\\']
  else if c = '\n' then ['\\', 'n']
  else if c = '\t' then ['\\', 't']
  else if c = '\r' then ['\\', 'r']
  else if c.toNat = 8 then ['\\', 'b']
  else if c.toNat = 12 then ['\\', 'f']
  else if c.toNat < 32 then
    ['\\', 'u', '0', '0', Nat.digitChar (c.toNat / 16), Nat.digitChar (c.toNat % 16)]
  else [c]

/-- Escape every character of a string body. -/
def escChars : List Char → List Char
  | [] => []
  | c :: cs => escChar c ++ escChars cs

mutual

/-- Serialization of a JSON value exactly as `json.dumps` emits it with the
default separators `", "` and `": "`. -/
def serJson : Json → List Char
  | .null => "null".data
  | .bool true => "true".data
  | .bool false => "false".data
  | .num n => intToChars n
  | .str s => '"' :: (escChars s ++ ['"'])
  | .arr [] => ['[', ']']
  | .arr (v :: vs) => '[' :: (serJson v ++ serElems vs ++ [']'])
  | .obj [] => ['{', '}']
  | .obj (kv :: ms) => '{' :: (serMember kv ++ serMembers ms ++ ['}'])

/-- The remaining array elements, each preceded by `", "`. -/
def serElems : List Json → List Char
  | [] => []
  | v :: vs => ',' :: ' ' :: (serJson v ++ serElems vs)

/-- One object member, `"key": value`. -/
def serMember : List Char × Json → List Char
  | (k, v) => '"' :: (escChars k ++ ['"', ':', ' '] ++ serJson v)

/-- The remaining object members, each preceded by `", "`. -/
def serMembers : List (List Char × Json) → List Char
  | [] => []
  | kv :: ms => ',' :: ' ' :: (serMember kv ++ serMembers ms)

end

/-- `json.dumps` on a value. -/
def jsonDumps (v : Json) : List Char := serJson v

/-- JSON's whitespace characters (what `json.decoder.WHITESPACE` skips). -/
def jsonWs (c : Char) : Bool :=
  c = ' ' || c = '\t' || c = '\n' || c = '\r'

/-- Skip JSON whitespace. -/
def skipWs (l : List Char) : List Char := l.dropWhile jsonWs

/-- Value of one hexadecimal digit. -/
def hexVal (c : Char) : Option Nat :=
  if c.isDigit then some (c.toNat - 48)
  else if 'a' ≤ c && c ≤ 'f' then some (c.toNat - 87)
  else if 'A' ≤ c && c ≤ 'F' then some (c.toNat - 55)
  else none

/-- The character a short JSON escape denotes. -/
def escCode (c : Char) : Option Char :=
  if c = '"' then some '"'
  else if c = '\\' then some '\\'
  else if c = '/' then some '/'
  else if c = 'b' then some (Char.ofNat 8)
  else if c = 'f' then some (Char.ofNat 12)
  else if c = 'n' then some '\n'
  else if c = 'r' then some '\r'
  else if c = 't' then some '\t'
  else none

/-- Parse a JSON string body (the opening quote already consumed), returning
the decoded characters and the input after the closing quote.  Unescaped
control characters are rejected, as Python's strict decoder does. -/
def parseStringBody : List Char → Option (List Char × List Char)
  | [] => none
  | c :: rest =>
    if c = '"' then some ([], rest)
    else if c = '\\' then
      match rest with
      | [] => none
      | e :: rest2 =>
        if e = 'u' then
          match rest2 with
          | h1 :: h2 :: h3 :: h4 :: rest3 =>
            match hexVal h1, hexVal h2, hexVal h3, hexVal h4 with
            | some a, some b, some c3, some d =>
              match parseStringBody rest3 with
              | some (s, r) => some (Char.ofNat (((a * 16 + b) * 16 + c3) * 16 + d) :: s, r)
              | none => none
            | _, _, _, _ => none
          | _ => none
        else
          match escCode e with
          | some ch =>
            match parseStringBody rest2 with
            | some (s, r) => some (ch :: s, r)
            | none => none
          | none => none
    else if c.toNat < 32 then none
    else
      match parseStringBody rest with
      | some (s, r) => some (c :: s, r)
      | none => none

/-- Numeric value of a run of decimal digits. -/
def charsToNat (ds : List Char) : Nat :=
  ds.foldl (fun a c => 10 * a + (c.toNat - 48)) 0

/-- Parse the integer part of a JSON number (the regex `0|[1-9]\d*`): a
leading zero is the whole match, otherwise the maximal digit run. -/
def parseIntPart (s : List Char) : Option (Nat × List Char) :=
  match s with
  | [] => none
  | c :: rest =>
    if c = '0' then some (0, rest)
    else
      let ds := (c :: rest).takeWhile Char.isDigit
      if ds = [] then none
      else some (charsToNat ds, (c :: rest).dropWhile Char.isDigit)

/-- The literal `null` (its first character already consumed). -/
def parseLitNull (rest : List Char) : Option (Json × List Char) :=
  match rest with
  | 'u' :: 'l' :: 'l' :: r => some (.null, r)
  | _ => none

/-- The literal `true` (its first character already consumed). -/
def parseLitTrue (rest : List Char) : Option (Json × List Char) :=
  match rest with
  | 'r' :: 'u' :: 'e' :: r => some (.bool true, r)
  | _ => none

/-- The literal `false` (its first character already consumed). -/
def parseLitFalse (rest : List Char) : Option (Json × List Char) :=
  match rest with
  | 'a' :: 'l' :: 's' :: 'e' :: r => some (.bool false, r)
  | _ => none

mutual

/-- One JSON value starting at the head of the input (the behavior of
`json.JSONDecoder.raw_decode` at an index, restricted to the integer model):
returns the value and the unconsumed input.  `fuel` bounds the nesting
recursion; every recursive call decreases it, and the top-level wrapper
passes enough for any input it is given. -/
def parseValue : Nat → List Char → Option (Json × List Char)
  | 0, _ => none
  | fuel + 1, s =>
    match s with
    | [] => none
    | c :: rest =>
      if c = '{' then
        let r := skipWs rest
        if r.head? = some '}' then some (.obj [], r.tail)
        else
          match parseMembers fuel r with
          | some (ms, r2) => some (.obj ms, r2)
          | none => none
      else if c = '[' then
        let r := skipWs rest
        if r.head? = some ']' then some (.arr [], r.tail)
        else
          match parseElems fuel r with
          | some (vs, r2) => some (.arr vs, r2)
          | none => none
      else if c = '"' then
        match parseStringBody rest with
        | some (str, r) => some (.str str, r)
        | none => none
      else if c = 'n' then parseLitNull rest
      else if c = 't' then parseLitTrue rest
      else if c = 'f' then parseLitFalse rest
      else if c = '-' then
        match parseIntPart rest with
        | some (n, r) => some (.num (-(n : Int)), r)
        | none => none
      else if c.isDigit then
        match parseIntPart (c :: rest) with
        | some (n, r) => some (.num (n : Int), r)
        | none => none
      else none

/-- The elements of a non-empty JSON array, the input standing just after
`[` with whitespace skipped; consumes through the closing `]`. -/
def parseElems : Nat → List Char → Option (List Json × List Char)
  | 0, _ => none
  | fuel + 1, s =>
    match parseValue fuel s with
    | some (v, r1) =>
      let r := skipWs r1
      if r.head? = some ',' then
        match parseElems fuel (skipWs r.tail) with
        | some (vs, r3) => some (v :: vs, r3)
        | none => none
      else if r.head? = some ']' then some ([v], r.tail)
      else none
    | none => none

/-- The members of a non-empty JSON object, the input standing just after
`{` with whitespace skipped; consumes through the closing `}`. -/
def parseMembers : Nat → List Char → Option (List (List Char × Json) × List Char)
  | 0, _ => none
  | fuel + 1, s =>
    if s.head? = some '"' then
      match parseStringBody s.tail with
      | some (k, r1) =>
        let r := skipWs r1
        if r.head? = some ':' then
          match parseValue fuel (skipWs r.tail) with
          | some (v, r3) =>
            let r4 := skipWs r3
            if r4.head? = some ',' then
              match parseMembers fuel (skipWs r4.tail) with
              | some (ms, r5) => some ((k, v) :: ms, r5)
              | none => none
            else if r4.head? = some '}' then some ([(k, v)], r4.tail)
            else none
          | none => none
        else none
      | none => none
    else none

end

/-- `json.JSONDecoder.raw_decode` on the input: decode one value at offset
zero, report the remainder.  `2 * length + 2` fuel covers any parse, since
each unit of nesting consumes input. -/
def rawDecode (s : List Char) : Option (Json × List Char) :=
  parseValue (2 * s.length + 2) s

/-- `json.loads`: skip leading whitespace, decode one value, and require
that only whitespace follows ("Extra data" otherwise). -/
def jsonLoads (s : List Char) : Option Json :=
  match rawDecode (skipWs s) with
  | some (v, rest) => if skipWs rest = [] then some v else none
  | none => none

/-- The fence marker ````` (three backticks). -/
def fenceMarker : List Char := [Char.ofNat 96, Char.ofNat 96, Char.ofNat 96]

/-- `_strip_code_fences` from `agent.py`: when the stripped text starts with
a fence marker and its last line is itself a fence marker, drop the first
and last lines and strip the result; otherwise return the text unchanged. -/
def stripCodeFences (text : List Char) : List Char :=
  let stripped := pyStrip text
  if ¬ (fenceMarker.isPrefixOf stripped) then text
  else
    let lines := pySplitlines stripped
    if lines.length < 2 then text
    else if ¬ (fenceMarker.isPrefixOf (lines.headD [])) then text
    else if ¬ (fenceMarker.isPrefixOf (pyStrip (lines.getLastD []))) then text
    else pyStrip (List.intercalate ['\n'] (lines.drop 1 |>.dropLast))

/-- The left-to-right scan of `_parse_json_output`: at every `\x7b` or `[`
try a raw decode of the suffix, accepting the first success (trailing
characters after the decoded value are ignored). -/
def scanCandidates : List Char → Option Json
  | [] => none
  | c :: rest =>
    if c = '{' || c = '[' then
      match rawDecode (c :: rest) with
      | some (v, _) => some v
      | none => scanCandidates rest
    else scanCandidates rest

/-- Replace newlines by the two characters `\n`, as the diagnostic snippet
of `_parse_json_output` does. -/
def escapeNewlines : List Char → List Char
  | [] => []
  | c :: rest => (if c = '\n' then ['\\', 'n'] else [c]) ++ escapeNewlines rest

/-- The `ValueError` message for unparsable model text. -/
def parseFailMsg (cleaned : List Char) : List Char :=
  "Invalid output: could not parse JSON. Response starts with: ".data
    ++ escapeNewlines (cleaned.take 200)

/-- The `ValueError` message for an empty response. -/
def emptyRespMsg : List Char := "Invalid output: empty response".data

/-- `_parse_json_output` from `agent.py` (the `text is None` guard falls
outside the model's input type): strip code fences and whitespace, fail on
empty text, try a direct `json.loads`, then fall back to the candidate scan,
and fail with a diagnostic snippet if nothing parses. -/
def parseJsonOutput (text : List Char) : Except (List Char) Json :=
  let cleaned := pyStrip (stripCodeFences text)
  if cleaned = [] then .error emptyRespMsg
  else
    match jsonLoads cleaned with
    | some v => .ok v
    | none =>
      match scanCandidates cleaned with
      | some v => .ok v
      | none => .error (parseFailMsg cleaned)

/-- How Python evaluates `lst[-k:]`: for `k = 0` the slice is `lst[0:]`,
the whole list; for `k > 0` it is the last `min k len` elements. -/
def pySliceLast {α : Type} (k : Nat) (l : List α) : List α :=
  if k = 0 then l else l.drop (l.length - k)

/-- An entry of a model-requested tool call, `tool_call.function`. -/
structure ToolCallFunction where
  name : String
  arguments : String

/-- One tool call as the model client returns it. -/
structure ToolCall where
  id : String
  function : ToolCallFunction

/-- Message roles. -/
inductive Role where
  | system
  | user
  | assistant
  | tool
deriving DecidableEq

/-- One conversational message as `agent.py` builds them (the optional
fields default to their absent state). -/
structure Message where
  role : Role
  content : String
  toolCalls : List ToolCall := []
  toolCallId : Option String := none
  name : Option String := none

/-- `BufferMemory` from `memory.py`. -/
structure BufferMemory where
  maxMessages : Nat
  messages : List Message

/-- `BufferMemory.add`: append, then truncate with the Python slice
`self.messages[-self.max_messages:]`. -/
def BufferMemory.add (b : BufferMemory) (m : Message) : BufferMemory :=
  { b with messages := pySliceLast b.maxMessages (b.messages ++ [m]) }

/-- `BufferMemory.clear`. -/
def BufferMemory.clear (b : BufferMemory) : BufferMemory :=
  { b with messages := [] }

/-- A registered tool: its `run` models the Python call
`tool.run(**arguments)` on the parsed arguments, returning either a result
value or the text of the exception it raised. -/
structure Tool where
  name : String
  description : String := ""
  run : Json → Except String Json

/-- One generation response: the assistant message's `content` (possibly
`None`) and `tool_calls` (`[]` models both `None` and an empty list, which
the loop treats alike), plus the reported total token usage. -/
structure LLMResponse where
  content : Option String := none
  toolCalls : List ToolCall := []
  totalTokens : Option Nat := none

/-- Building `self.tools = {tool.name: tool for tool in tools}`: a Python
dict keyed by name — first insertion fixes the position, a later duplicate
overwrites the value. -/
def insertToolEntry (acc : List Tool) (t : Tool) : List Tool :=
  if acc.any (fun u => u.name = t.name) then
    acc.map (fun u => if u.name = t.name then t else u)
  else acc ++ [t]

/-- The agent's name → tool mapping, in dict order. -/
def buildToolsDict (tools : List Tool) : List Tool :=
  tools.foldl insertToolEntry []

/-- Python `", ".join(names)`. -/
def commaJoin : List String → String
  | [] => ""
  | [n] => n
  | n :: rest => n ++ ", " ++ commaJoin rest

/-- `json.loads` over a Python string, with the decode error reported as a
message (the positional detail of `json.JSONDecodeError` is modelled by a
fixed phrase). -/
def jsonLoadsStr (s : String) : Except String Json :=
  match jsonLoads s.data with
  | some v => .ok v
  | none => .error "Expecting value"

/-- How `_execute_tool` renders a successful tool result: `dict`/`list`
results via `json.dumps`, `None` as the literal `"null"`, everything else
via `str(...)`. -/
def serializeToolResult : Json → String
  | .obj m => ⟨serJson (.obj m)⟩
  | .arr l => ⟨serJson (.arr l)⟩
  | .null => "null"
  | .str s => ⟨s⟩
  | .bool true => "True"
  | .bool false => "False"
  | .num n => ⟨intToChars n⟩

/-- `Agent._execute_tool`: parse the JSON arguments, look the tool up by
name, run it, and render every failure as an in-band result string; total
by construction, so no exception escapes the dispatch step. -/
def executeTool (toolsDict : List Tool) (tc : ToolCall) : String :=
  let toolName := tc.function.name
  match jsonLoadsStr tc.function.arguments with
  | .error detail => "Error: Invalid JSON arguments - " ++ detail
  | .ok args =>
    match toolsDict.find? (fun t => t.name = toolName) with
    | none =>
      "Error: Tool '" ++ toolName ++ "' not found. Available: "
        ++ commaJoin (toolsDict.map (fun t => t.name))
    | some tool =>
      match tool.run args with
      | .ok result => serializeToolResult result
      | .error detail => "Error executing " ++ toolName ++ ": " ++ detail

/-- The assistant message that replays a tool-calling response into the
request-local message list. -/
def assistantToolCallMessage (resp : LLMResponse) : Message :=
  { role := .assistant, content := resp.content.getD "", toolCalls := resp.toolCalls }

/-- The `role: tool` message holding one tool call's result. -/
def toolResultMessage (toolsDict : List Tool) (tc : ToolCall) : Message :=
  { role := .tool, content := executeTool toolsDict tc,
    toolCallId := some tc.id, name := some tc.function.name }

/-- The outcome of the checks an optional output schema induces: the system
message that renders it (`build_schema_system_prompt`) and the result of
`jsonschema.validate` (`none` = conforming, `some m` = the violation
message), modelling the external `jsonschema` collaborator. -/
structure OutputSchemaSpec where
  schemaMessage : Message
  check : Json → Option String

/-- `self._validate(self.output_schema, value, "output")` as a value:
no-op without a schema. -/
def outputValidate (os : Option OutputSchemaSpec) (v : Json) : Option String :=
  match os with
  | none => none
  | some s => s.check v

/-- Result of one run: `success` carries the structured output, `failure`
the message of the exception `Agent.run` raised. -/
inductive RunOutcome where
  | success (result : Json)
  | failure (error : String)

/-- The observable state a run leaves behind: its outcome, the memory
contents after the run, and how many times `llm.generate` was invoked. -/
structure RunState where
  outcome : RunOutcome
  memory : List Message
  generateCalls : Nat

/-- What the final-answer branch of `Agent.run` yields: extraction by
`_parse_json_output`, then optional output validation. -/
def finalOutcome (os : Option OutputSchemaSpec) (finalText : String) : RunOutcome :=
  match parseJsonOutput finalText.data with
  | .error e => .failure ⟨e⟩
  | .ok structured =>
    match outputValidate os structured with
    | some emsg => .failure ("Invalid output: " ++ emsg)
    | none => .success structured

/-- The `while iteration < max_iterations` loop of `Agent.run`.  `llm`
scripts the model client: call number `i` (0-based) returns `llm i`.
`remaining = max_iterations - iteration`, `calls` counts `llm.generate`
invocations so far.  A tool-calling response extends the request-local
message list and loops; a final answer is appended to memory, parsed and
validated; exhaustion raises `Max iterations reached`. -/
def agentLoop (llm : Nat → LLMResponse) (toolsDict : List Tool)
    (os : Option OutputSchemaSpec) :
    Nat → Nat → List Message → BufferMemory → RunState
  | 0, calls, _msgs, mem => ⟨.failure "Max iterations reached", mem.messages, calls⟩
  | remaining + 1, calls, msgs, mem =>
    let resp := llm calls
    if resp.toolCalls.isEmpty then
      let finalText := resp.content.getD ""
      let mem2 := mem.add { role := .assistant, content := finalText }
      ⟨finalOutcome os finalText, mem2.messages, calls + 1⟩
    else
      let msgs2 := msgs ++ [assistantToolCallMessage resp]
        ++ resp.toolCalls.map (toolResultMessage toolsDict)
      agentLoop llm toolsDict os remaining (calls + 1) msgs2 mem

/-- The per-run ingredients of `Agent.run` around the loop, with the
external collaborators (rendered prompt, `jsonschema` verdicts) given as
values: `inputCheckError` is the outcome of validating `input_data` against
`input_schema` (`none` when absent or conforming). -/
structure AgentRunConfig where
  llm : Nat → LLMResponse
  promptMessages : List Message
  memory : BufferMemory
  tools : List Tool
  inputCheckError : Option String := none
  outputSchema : Option OutputSchemaSpec := none

/-- `Agent.run` (metrics and trace-id generation, which read the clock and
fresh UUIDs, are outside the model): clear memory, validate input, build
the initial messages (schema instruction, rendered prompt, memory replay),
then iterate. -/
def agentRun (a : AgentRunConfig) (maxIterations : Nat) : RunState :=
  let mem := a.memory.clear
  match a.inputCheckError with
  | some e => ⟨.failure ("Invalid input: " ++ e), mem.messages, 0⟩
  | none =>
    let messages :=
      (match a.outputSchema with
       | some os => [os.schemaMessage]
       | none => [])
      ++ a.promptMessages ++ mem.messages
    agentLoop a.llm (buildToolsDict a.tools) a.outputSchema
      maxIterations 0 messages mem

/-- A node of an orchestration graph (`OrchestrationNode`; `position` and
`config` play no role in validation). -/
structure ONode where
  id : String
  type : String := "agent"
  agentId : Option String := none

/-- An edge of an orchestration graph (`OrchestrationEdge`; `condition` and
`label` play no role in validation). -/
structure OEdge where
  id : String := ""
  source : String
  target : String

/-- An orchestration graph document as the validator reads it. -/
structure OGraph where
  nodes : List ONode
  edges : List OEdge
  entryNode : Option String := none

/-- `OrchestrationValidationResult`. -/
structure ValidationResult where
  valid : Bool
  errors : List String
  warnings : List String

/-- Python truthiness of the optional `entry_node` (`None` and the empty
string are falsy). -/
def entryTruthy : Option String → Bool
  | none => false
  | some s => ¬ (s = "")

/-- The entry-node rule: a falsy entry is a warning, an unknown one an
error. -/
def entryCheck (entry : Option String) (nodeIds : List String) :
    List String × List String :=
  match entry with
  | none => ([], ["No entry node specified"])
  | some e =>
    if e = "" then ([], ["No entry node specified"])
    else if nodeIds.contains e then ([], [])
    else (["Entry node '" ++ e ++ "' not found in nodes"], [])

/-- Deduplication keeping first occurrences: the node-id `set` the orphan
check iterates over (Python set order is unspecified; membership is what
the properties use). -/
def dedupFirst : List String → List String
  | [] => []
  | x :: xs => x :: dedupFirst (xs.filter (fun y => ¬ (y = x)))
termination_by l => l.length
decreasing_by
  simp only [gt_iff_lt]
  have := List.length_filter_le (fun y => ¬ (y = x)) xs
  simp only [List.length_cons]
  omega

/-- The orphan warnings: nodes that are no edge's source or target and not
the entry node. -/
def orphanWarnings (g : OGraph) : List String :=
  (dedupFirst (g.nodes.map (fun n => n.id))).filterMap (fun nid =>
    if g.edges.all (fun e => ¬ (e.source = nid))
        && g.edges.all (fun e => ¬ (e.target = nid))
        && ¬ (g.entryNode = some nid) then
      some ("Node '" ++ nid ++ "' has no connections")
    else none)

/-- The dangling-edge errors, one per offending endpoint in edge order. -/
def edgeRefErrors (g : OGraph) : List String :=
  let nodeIds := g.nodes.map (fun n => n.id)
  (g.edges.map (fun e =>
    (if nodeIds.contains e.source then []
     else ["Edge source '" ++ e.source ++ "' not found in nodes"])
    ++
    (if nodeIds.contains e.target then []
     else ["Edge target '" ++ e.target ++ "' not found in nodes"]))).flatten

mutual

/-- `has_cycle(node_id)` from `validate_orchestration`: mark the node
visited and on the recursion stack, then scan the edges; the boolean result
pairs with the updated visited set (the recursion-stack additions are
scoped, matching the `add`/`discard` pair).  `fuel` bounds the recursion
depth; the top-level caller passes more than the number of distinct ids, so
the `0` case is never reached there. -/
def hasCycle (edges : List OEdge) :
    Nat → String → List String → List String → Bool × List String
  | 0, _, visited, _ => (false, visited)
  | fuel + 1, nodeId, visited, recStack =>
    cycleEdgeLoop edges fuel edges nodeId (nodeId :: visited) (nodeId :: recStack)
termination_by fuel _ _ _ => (fuel, 0)

/-- The `for edge in edges` body of `has_cycle`: follow each edge out of
`nodeId`; recurse into unvisited neighbors, report a cycle on a neighbor
still on the recursion stack. -/
def cycleEdgeLoop (edges : List OEdge) :
    Nat → List OEdge → String → List String → List String → Bool × List String
  | _, [], _, visited, _ => (false, visited)
  | fuel, e :: pending, nodeId, visited, recStack =>
    if e.source = nodeId then
      let neighbor := e.target
      if neighbor ∈ visited then
        if neighbor ∈ recStack then (true, visited)
        else cycleEdgeLoop edges fuel pending nodeId visited recStack
      else
        match hasCycle edges fuel neighbor visited recStack with
        | (true, v) => (true, v)
        | (false, v) => cycleEdgeLoop edges fuel pending nodeId v recStack
    else cycleEdgeLoop edges fuel pending nodeId visited recStack
termination_by fuel pending _ _ _ => (fuel, pending.length + 1)

end

/-- The `for node in nodes` driver of the cycle check: start a traversal at
every not-yet-visited node, stopping at the first detection (the `break`
after appending the error once). -/
def cycleOuter (edges : List OEdge) (fuel : Nat) :
    List String → List String → Bool
  | [], _visited => false
  | nid :: rest, visited =>
    if nid ∈ visited then cycleOuter edges fuel rest visited
    else
      match hasCycle edges fuel nid visited [] with
      | (true, _) => true
      | (false, v) => cycleOuter edges fuel rest v

/-- All ids the traversal can ever visit: the listed node ids and every
edge target. -/
def allIds (g : OGraph) : List String :=
  g.nodes.map (fun n => n.id) ++ g.edges.map (fun e => e.target)

/-- The cycle error, present iff the bounded depth-first search detects a
back edge. -/
def cycleErrors (g : OGraph) : List String :=
  if cycleOuter g.edges ((allIds g).length + 1) (g.nodes.map (fun n => n.id)) [] then
    ["Circular dependency detected in orchestration graph"]
  else []

/-- The dangling agent-reference errors: `agent` nodes whose truthy
`agent_id` the storage lookup cannot resolve. -/
def agentRefErrors (g : OGraph) (agentExists : String → Bool) : List String :=
  (g.nodes.map (fun n =>
    if n.type = "agent" then
      match n.agentId with
      | some aid =>
        if ¬ (aid = "") && ¬ (agentExists aid) then
          ["Agent '" ++ aid ++ "' referenced in node '" ++ n.id ++ "' not found"]
        else []
      | none => []
    else [])).flatten

/-- `validate_orchestration` from `orchestration.py` after the graph has
been fetched: accumulate errors and warnings rule by rule; `valid` is the
error list being empty.  `agentExists` models the `storage.get_agent`
lookup. -/
def validateOrchestration (g : OGraph) (agentExists : String → Bool) :
    ValidationResult :=
  let nodeIds := g.nodes.map (fun n => n.id)
  let noNodesErrors : List String :=
    if g.nodes.isEmpty then ["Orchestration has no nodes"] else []
  let ec := entryCheck g.entryNode nodeIds
  let errors := noNodesErrors ++ ec.1 ++ edgeRefErrors g ++ cycleErrors g
    ++ agentRefErrors g agentExists
  let warnings := ec.2 ++ orphanWarnings g
  { valid := errors.isEmpty, errors := errors, warnings := warnings }

/-! ### The edge relation and the cycle-detection invariants -/

/-- One directed step of the orchestration graph's edge relation. -/
def edgeStepR (edges : List OEdge) (u v : String) : Prop :=
  ∃ e ∈ edges, e.source = u ∧ e.target = v

/-- The recursion stack as `has_cycle` maintains it: consecutive entries
are connected by an edge, deepest first. -/
def stackChain (edges : List OEdge) : List String → Prop
  | [] => True
  | [_] => True
  | a :: b :: t => edgeStepR edges b a ∧ stackChain edges (b :: t)

/-- Ids of the reference list `U` not yet visited, counted with
multiplicity; the traversal fuel dominates it. -/
def missCount (U visited : List String) : Nat :=
  U.countP (fun x => decide (x ∉ visited))

/-- Every edge out of a finished node (visited and off the recursion
stack) leads to a finished node. -/
def finishedClosed (edges : List OEdge) (visited rs : List String) : Prop :=
  ∀ e ∈ edges, e.source ∈ visited → e.source ∉ rs →
    e.target ∈ visited ∧ e.target ∉ rs

/-- No cycle of the edge relation passes through a finished node. -/
def finishedAcyclic (edges : List OEdge) (visited rs : List String) : Prop :=
  ∀ c, c ∈ visited → c ∉ rs → ¬ Relation.TransGen (edgeStepR edges) c c

/-- The guarantee a `(false, _)` return of `hasCycle` provides at a given
fuel, relative to a reference id list `U`: the visited set grows by the
explored node, stays inside `U`, and the finished part stays closed and
acyclic. -/
def hasCyclePost (edges : List OEdge) (U : List String) (fuel : Nat) : Prop :=
  ∀ (nodeId : String) (visited rs : List String),
    nodeId ∈ U → nodeId ∉ visited →
    (∀ x ∈ rs, x ∈ visited) → (∀ x ∈ visited, x ∈ U) →
    missCount U visited + 1 ≤ fuel →
    finishedClosed edges visited rs → finishedAcyclic edges visited rs →
    ∀ v, hasCycle edges fuel nodeId visited rs = (false, v) →
      (∀ x ∈ visited, x ∈ v) ∧ nodeId ∈ v ∧ (∀ x ∈ v, x ∈ U)
        ∧ finishedClosed edges v rs ∧ finishedAcyclic edges v rs

/-- An entry-less but otherwise flawless graph: one node, no edges. -/
def c7EntrylessGraph : OGraph :=
  { nodes := [{ id := "a" }], edges := [], entryNode := none }

/-- The two-node cycle `a → b → a` with both nodes listed. -/
def c8CycleGraph : OGraph :=
  { nodes := [{ id := "a" }, { id := "b" }],
    edges := [{ source := "a", target := "b" }, { source := "b", target := "a" }],
    entryNode := some "a" }

/-- A cycle `x → y → x` among ids that no listed node carries: the
traversal never reaches it. -/
def c8DanglingGraph : OGraph :=
  { nodes := [{ id := "a" }],
    edges := [{ source := "x", target := "y" }, { source := "y", target := "x" }],
    entryNode := some "a" }

/-- A response that always asks for a tool call. -/
def toolCallRespEx : LLMResponse :=
  { content := none,
    toolCalls := [{ id := "t1", function := { name := "f", arguments := "\x7b\x7d" } }] }

/-- A run configuration whose scripted model always requests tool calls. -/
def cfgLoopEx : AgentRunConfig :=
  { llm := fun _ => toolCallRespEx,
    promptMessages := [{ role := .user, content := "hi" }],
    memory := { maxMessages := 5, messages := [] },
    tools := [] }

/-- A run configuration whose scripted model immediately answers `42`. -/
def cfgFinalEx : AgentRunConfig :=
  { llm := fun _ => { content := some "42" },
    promptMessages := [{ role := .user, content := "hi" }],
    memory := { maxMessages := 5, messages := [] },
    tools := [] }

/-- A run configuration whose scripted model answers with plain text. -/
def cfgHelloEx : AgentRunConfig :=
  { llm := fun _ => { content := some "hello" },
    promptMessages := [{ role := .user, content := "hi" }],
    memory := { maxMessages := 5, messages := [] },
    tools := [] }

/-! ### Bounded memory -/

/-- The memory contents after a sequence of `add` calls on a freshly
constructed `BufferMemory`. -/
def addAll (maxMessages : Nat) (msgs : List Message) : BufferMemory :=
  msgs.foldl BufferMemory.add { maxMessages := maxMessages, messages := [] }

/-- A sample message for concrete instantiations. -/
def sampleMsg (i : Nat) : Message :=
  { role := .user, content := ⟨natToChars i⟩ }

theorem pySliceLast_of_ne_zero {α : Type} (k : Nat) (hk : k ≠ 0) (l : List α) :
    pySliceLast k l = l.drop (l.length - k) := by
  simp [pySliceLast, hk]

theorem addAll_go (max : Nat) (hmax : 1 ≤ max) :
    ∀ (msgs acc : List Message), acc.length ≤ max →
      (msgs.foldl BufferMemory.add
          { maxMessages := max, messages := acc }).messages
        = (acc ++ msgs).drop ((acc ++ msgs).length - max) := by
  intro msgs
  induction msgs with
  | nil =>
    intro acc hacc
    simp only [List.foldl_nil, List.append_nil]
    have : acc.length - max = 0 := by omega
    simp [this]
  | cons m rest ih =>
    intro acc hacc
    have hadd : (BufferMemory.add { maxMessages := max, messages := acc } m).messages
        = (acc ++ [m]).drop ((acc ++ [m]).length - max) := by
      simp only [BufferMemory.add]
      exact pySliceLast_of_ne_zero max (by omega) _
    have hlen : ((acc ++ [m]).drop ((acc ++ [m]).length - max)).length ≤ max := by
      simp only [List.length_drop]
      omega
    have step : (BufferMemory.add { maxMessages := max, messages := acc } m)
        = { maxMessages := max,
            messages := (acc ++ [m]).drop ((acc ++ [m]).length - max) } := by
      simp only [BufferMemory.add]
      rw [pySliceLast_of_ne_zero max (by omega)]
    simp only [List.foldl_cons, step]
    rw [ih _ hlen]
    have hd : (acc ++ [m]).length - max ≤ (acc ++ [m]).length := Nat.sub_le _ _
    have hcount : ((acc ++ [m]).drop ((acc ++ [m]).length - max) ++ rest).length - max
        = ((acc ++ [m]).length - ((acc ++ [m]).length - max) + rest.length) - max := by
      simp [List.length_append, List.length_drop]
    rw [hcount, ← List.drop_append_of_le_length hd, List.drop_drop]
    have hlist : acc ++ [m] ++ rest = acc ++ m :: rest := by
      simp
    rw [hlist]
    congr 1
    simp only [List.length_append, List.length_cons, List.length_nil,
      List.length_drop]
    omega

/-- `C3` counterexample: with `max_messages = 0` the Python slice
`self.messages[-0:]` is the whole list, so one `add` leaves one retained
message, refuting the `max_messages ≥ 0` bound at `max_messages = 0`. -/
theorem c3_zero_capacity_counterexample :
    (addAll 0 [sampleMsg 0]).messages.length = 1
      ∧ ¬ ((addAll 0 [sampleMsg 0]).messages.length ≤ 0) :=
  ⟨rfl, by decide⟩

/-- `C3` (amended to `max_messages ≥ 1`): the memory after any sequence of
`add` calls is exactly the last `max_messages` of the added messages in
their original order — in particular it never holds more than
`max_messages` entries. -/
theorem c3_buffer_retains_last_max (max : Nat) (hmax : 1 ≤ max)
    (msgs : List Message) :
    (addAll max msgs).messages = msgs.drop (msgs.length - max)
      ∧ (addAll max msgs).messages.length ≤ max := by
  have h := addAll_go max hmax msgs [] (by simp)
  simp only [List.nil_append] at h
  simp only [addAll]
  refine ⟨h, ?_⟩
  rw [h]
  simp only [List.length_drop]
  omega

/-- Witness for `c3_buffer_retains_last_max` at `max_messages = 2` and
three adds: the retained entries are the last two, in order. -/
theorem c3_buffer_retains_last_max_witness :
    (1 ≤ 2)
      ∧ ((addAll 2 [sampleMsg 0, sampleMsg 1, sampleMsg 2]).messages
          = [sampleMsg 0, sampleMsg 1, sampleMsg 2].drop
              ([sampleMsg 0, sampleMsg 1, sampleMsg 2].length - 2)
        ∧ (addAll 2 [sampleMsg 0, sampleMsg 1, sampleMsg 2]).messages.length ≤ 2) :=
  ⟨by omega, c3_buffer_retains_last_max 2 (by omega) _⟩

/-! ### Decimal digits: `str(n)` round-trips through the number parser -/

theorem digitChar_isDigit (d : Nat) (h : d < 10) :
    (Nat.digitChar d).isDigit = true := by
  interval_cases d <;> decide

theorem digitChar_toNat_sub (d : Nat) (h : d < 10) :
    (Nat.digitChar d).toNat - 48 = d := by
  interval_cases d <;> decide

theorem digitChar_ne_zero (d : Nat) (h1 : 1 ≤ d) (h2 : d < 10) :
    Nat.digitChar d ≠ '0' := by
  interval_cases d <;> decide

theorem natToCharsAux_all_digits :
    ∀ fuel n, n < fuel → ∀ c ∈ natToCharsAux fuel n, c.isDigit = true := by
  intro fuel
  induction fuel with
  | zero => omega
  | succ fuel ih =>
    intro n hn c hc
    by_cases h : n < 10
    · simp only [natToCharsAux, if_pos h, List.mem_singleton] at hc
      subst hc
      exact digitChar_isDigit n h
    · simp only [natToCharsAux, if_neg h, List.mem_append, List.mem_singleton] at hc
      rcases hc with hc | hc
      · have hdiv : n / 10 < fuel := by omega
        exact ih (n / 10) hdiv c hc
      · subst hc
        exact digitChar_isDigit _ (Nat.mod_lt _ (by omega))

theorem natToCharsAux_ne_nil (fuel n : Nat) (h : n < fuel) :
    natToCharsAux fuel n ≠ [] := by
  match fuel with
  | 0 => omega
  | fuel + 1 =>
    by_cases h10 : n < 10
    · simp [natToCharsAux, h10]
    · simp [natToCharsAux, h10]

theorem natToCharsAux_head_ne_zero :
    ∀ fuel n, 1 ≤ n → n < fuel →
      ∀ c, (natToCharsAux fuel n).head? = some c → c ≠ '0' := by
  intro fuel
  induction fuel with
  | zero => omega
  | succ fuel ih =>
    intro n h1 hn c hc
    by_cases h : n < 10
    · simp only [natToCharsAux, if_pos h, List.head?_cons, Option.some.injEq] at hc
      subst hc
      exact digitChar_ne_zero n h1 h
    · simp only [natToCharsAux, if_neg h] at hc
      have hdiv1 : 1 ≤ n / 10 := by omega
      have hdiv : n / 10 < fuel := by omega
      have hne := natToCharsAux_ne_nil fuel (n / 10) hdiv
      match hmt : natToCharsAux fuel (n / 10) with
      | [] => exact absurd hmt hne
      | d :: ds =>
        rw [hmt, List.cons_append, List.head?_cons, Option.some.injEq] at hc
        subst hc
        exact ih (n / 10) hdiv1 hdiv d (by rw [hmt]; rfl)

theorem charsToNat_append_one (xs : List Char) (c : Char) :
    charsToNat (xs ++ [c]) = 10 * charsToNat xs + (c.toNat - 48) := by
  simp [charsToNat, List.foldl_append]

theorem charsToNat_natToCharsAux :
    ∀ fuel n, n < fuel → charsToNat (natToCharsAux fuel n) = n := by
  intro fuel
  induction fuel with
  | zero => omega
  | succ fuel ih =>
    intro n hn
    by_cases h : n < 10
    · simp only [natToCharsAux, if_pos h]
      interval_cases n <;> decide
    · have hdiv : n / 10 < fuel := by omega
      simp only [natToCharsAux, if_neg h]
      rw [charsToNat_append_one, ih (n / 10) hdiv,
        digitChar_toNat_sub _ (Nat.mod_lt _ (by omega))]
      omega

theorem natToChars_all_digits (n : Nat) :
    ∀ c ∈ natToChars n, c.isDigit = true :=
  natToCharsAux_all_digits (n + 1) n (by omega)

theorem natToChars_ne_nil (n : Nat) : natToChars n ≠ [] :=
  natToCharsAux_ne_nil (n + 1) n (by omega)

theorem natToChars_head_ne_zero (n : Nat) (h : 1 ≤ n) :
    ∀ c, (natToChars n).head? = some c → c ≠ '0' :=
  natToCharsAux_head_ne_zero (n + 1) n h (by omega)

theorem charsToNat_natToChars (n : Nat) : charsToNat (natToChars n) = n :=
  charsToNat_natToCharsAux (n + 1) n (by omega)

theorem takeWhile_append_all {p : Char → Bool} :
    ∀ (l r : List Char), (∀ c ∈ l, p c = true) →
      (∀ c, r.head? = some c → p c = false) →
      (l ++ r).takeWhile p = l ∧ (l ++ r).dropWhile p = r := by
  intro l
  induction l with
  | nil =>
    intro r _ hr
    match r with
    | [] => simp
    | c :: r' =>
      have := hr c rfl
      simp [List.takeWhile_cons, List.dropWhile_cons, this]
  | cons a l ih =>
    intro r hl hr
    have ha : p a = true := hl a (List.mem_cons_self a l)
    have := ih r (fun c hc => hl c (List.mem_cons_of_mem a hc)) hr
    simp [List.takeWhile_cons, List.dropWhile_cons, ha, this.1, this.2]

/-- Parsing the integer part of a serialized natural number consumes exactly
its digits, provided the remainder does not begin with a digit. -/
theorem parseIntPart_natToChars (n : Nat) (rest : List Char)
    (hrest : ∀ c, rest.head? = some c → c.isDigit = false) :
    parseIntPart (natToChars n ++ rest) = some (n, rest) := by
  match hmt : natToChars n with
  | [] => exact absurd hmt (natToChars_ne_nil n)
  | d :: ds =>
    by_cases hzero : n = 0
    · subst hzero
      have : natToChars 0 = ['0'] := rfl
      rw [hmt] at this
      cases this
      simp [parseIntPart]
    · have hd0 : d ≠ '0' := by
        refine natToChars_head_ne_zero n (by omega) d ?_
        rw [hmt]; rfl
      have hall : ∀ c ∈ d :: ds, c.isDigit = true := by
        rw [← hmt]; exact natToChars_all_digits n
      have htw := takeWhile_append_all (d :: ds) rest hall hrest
      simp only [List.cons_append, parseIntPart, if_neg hd0]
      rw [← List.cons_append]
      rw [htw.1, htw.2]
      have hne : d :: ds ≠ [] := by simp
      simp only [if_neg hne]
      rw [← hmt, charsToNat_natToChars]

/-! ### String escaping round-trips through the string parser -/

theorem hexVal_digitChar (d : Nat) (h : d < 16) :
    hexVal (Nat.digitChar d) = some d := by
  interval_cases d <;> decide

theorem parseStringBody_escChars :
    ∀ (s rest : List Char),
      parseStringBody (escChars s ++ '"' :: rest) = some (s, rest) := by
  intro s
  induction s with
  | nil =>
    intro rest
    show parseStringBody ([] ++ '"' :: rest) = some ([], rest)
    rw [List.nil_append, parseStringBody.eq_def]
    simp
  | cons c cs ih =>
    intro rest
    show parseStringBody (escChar c ++ escChars cs ++ '"' :: rest) = some (c :: cs, rest)
    by_cases h1 : c = '"'
    · subst h1
      simp only [escChar, if_pos rfl, List.cons_append, List.nil_append]
      rw [parseStringBody.eq_def]
      simp [escCode, ih]
    · by_cases h2 : c = '\\'
      · subst h2
        simp only [escChar, if_neg h1, if_pos rfl, List.cons_append, List.nil_append]
        rw [parseStringBody.eq_def]
        simp [escCode, ih]
      · by_cases h3 : c = '\n'
        · subst h3
          simp only [escChar, if_neg h1, if_neg h2, if_pos rfl, List.cons_append,
            List.nil_append]
          rw [parseStringBody.eq_def]
          simp [escCode, ih]
        · by_cases h4 : c = '\t'
          · subst h4
            simp only [escChar, if_neg h1, if_neg h2, if_neg h3, if_pos rfl,
              List.cons_append, List.nil_append]
            rw [parseStringBody.eq_def]
            simp [escCode, ih]
          · by_cases h5 : c = '\r'
            · subst h5
              simp only [escChar, if_neg h1, if_neg h2, if_neg h3, if_neg h4,
                if_pos rfl, List.cons_append, List.nil_append]
              rw [parseStringBody.eq_def]
              simp [escCode, ih]
            · by_cases h6 : c.toNat = 8
              · have hc : Char.ofNat 8 = c := by
                  have := Char.ofNat_toNat c
                  rw [h6] at this
                  exact this
                simp only [escChar, if_neg h1, if_neg h2, if_neg h3, if_neg h4,
                  if_neg h5, if_pos h6, List.cons_append, List.nil_append]
                rw [parseStringBody.eq_def]
                simp only [escCode]
                simp [ih]
                exact hc
              · by_cases h7 : c.toNat = 12
                · have hc : Char.ofNat 12 = c := by
                    have := Char.ofNat_toNat c
                    rw [h7] at this
                    exact this
                  simp only [escChar, if_neg h1, if_neg h2, if_neg h3, if_neg h4,
                    if_neg h5, if_neg h6, if_pos h7, List.cons_append, List.nil_append]
                  rw [parseStringBody.eq_def]
                  simp only [escCode]
                  simp [ih]
                  exact hc
                · by_cases h8 : c.toNat < 32
                  · have hdiv : c.toNat / 16 < 16 := by omega
                    have hmod : c.toNat % 16 < 16 := by omega
                    have hval : ((0 * 16 + 0) * 16 + c.toNat / 16) * 16 + c.toNat % 16
                        = c.toNat := by omega
                    have hc : Char.ofNat c.toNat = c := Char.ofNat_toNat c
                    simp only [escChar, if_neg h1, if_neg h2, if_neg h3, if_neg h4,
                      if_neg h5, if_neg h6, if_neg h7, if_pos h8, List.cons_append,
                      List.nil_append]
                    rw [parseStringBody.eq_def]
                    simp only [hexVal_digitChar _ hdiv, hexVal_digitChar _ hmod]
                    simp [hexVal, ih]
                    have heq : c.toNat / 16 * 16 + c.toNat % 16 = c.toNat := by omega
                    rw [heq]
                    exact hc
                  · simp only [escChar, if_neg h1, if_neg h2, if_neg h3, if_neg h4,
                      if_neg h5, if_neg h6, if_neg h7, if_neg h8, List.cons_append,
                      List.nil_append]
                    rw [parseStringBody.eq_def]
                    simp [h1, h2, h8, ih]

/-! ### Serialized values round-trip through the value parser -/

theorem isDigit_ne {c d : Char} (h : c.isDigit = true) (hd : d.isDigit = false) :
    c ≠ d := by
  intro heq
  rw [heq, hd] at h
  cases h

theorem parseValue_null (fuel : Nat) (hf : 1 ≤ fuel) (rest : List Char) :
    parseValue fuel (['n', 'u', 'l', 'l'] ++ rest) = some (.null, rest) := by
  match fuel with
  | fuel + 1 =>
    rw [parseValue.eq_def]
    simp [parseLitNull]

theorem parseValue_true (fuel : Nat) (hf : 1 ≤ fuel) (rest : List Char) :
    parseValue fuel (['t', 'r', 'u', 'e'] ++ rest) = some (.bool true, rest) := by
  match fuel with
  | fuel + 1 =>
    rw [parseValue.eq_def]
    simp [parseLitTrue]

theorem parseValue_false (fuel : Nat) (hf : 1 ≤ fuel) (rest : List Char) :
    parseValue fuel (['f', 'a', 'l', 's', 'e'] ++ rest) = some (.bool false, rest) := by
  match fuel with
  | fuel + 1 =>
    rw [parseValue.eq_def]
    simp [parseLitFalse]

theorem parseValue_num (n : Int) (fuel : Nat) (hf : 1 ≤ fuel) (rest : List Char)
    (hrest : ∀ c, rest.head? = some c → c.isDigit = false) :
    parseValue fuel (intToChars n ++ rest) = some (.num n, rest) := by
  match fuel with
  | fuel + 1 =>
    by_cases hn : n < 0
    · simp only [intToChars, if_pos hn, List.cons_append]
      rw [parseValue.eq_def]
      simp only []
      rw [parseIntPart_natToChars n.natAbs rest hrest]
      show some (Json.num (-(n.natAbs : Int)), rest) = some (Json.num n, rest)
      have : -(n.natAbs : Int) = n := by omega
      rw [this]
    · simp only [intToChars, if_neg hn]
      match hmt : natToChars n.toNat with
      | [] => exact absurd hmt (natToChars_ne_nil n.toNat)
      | d :: ds =>
        have hd : d.isDigit = true := by
          refine natToChars_all_digits n.toNat d ?_
          rw [hmt]
          exact List.mem_cons_self d ds
        have h1 : ¬ (d = '{') := isDigit_ne hd (by decide)
        have h2 : ¬ (d = '[') := isDigit_ne hd (by decide)
        have h3 : ¬ (d = '"') := isDigit_ne hd (by decide)
        have h4 : ¬ (d = 'n') := isDigit_ne hd (by decide)
        have h5 : ¬ (d = 't') := isDigit_ne hd (by decide)
        have h6 : ¬ (d = 'f') := isDigit_ne hd (by decide)
        have h7 : ¬ (d = '-') := isDigit_ne hd (by decide)
        rw [List.cons_append, parseValue.eq_def]
        simp only [h1, h2, h3, h4, h5, h6, h7, hd, if_neg, if_false, if_pos,
          if_true, ite_false, ite_true]
        rw [← List.cons_append, ← hmt, parseIntPart_natToChars n.toNat rest hrest]
        have : (n.toNat : Int) = n := by omega
        simp [this]

theorem parseValue_str (s : List Char) (fuel : Nat) (hf : 1 ≤ fuel)
    (rest : List Char) :
    parseValue fuel (('"' :: (escChars s ++ ['"'])) ++ rest) = some (.str s, rest) := by
  match fuel with
  | fuel + 1 =>
    rw [List.cons_append, parseValue.eq_def]
    simp only []
    have : (escChars s ++ ['"']) ++ rest = escChars s ++ '"' :: rest := by
      simp
    rw [this, parseStringBody_escChars]
    simp

theorem parseValue_arr_nil (fuel : Nat) (hf : 1 ≤ fuel) (rest : List Char) :
    parseValue fuel (['[', ']'] ++ rest) = some (.arr [], rest) := by
  match fuel with
  | fuel + 1 =>
    rw [parseValue.eq_def]
    simp [skipWs, List.dropWhile_cons, jsonWs]

theorem parseValue_obj_nil (fuel : Nat) (hf : 1 ≤ fuel) (rest : List Char) :
    parseValue fuel (['{', '}'] ++ rest) = some (.obj [], rest) := by
  match fuel with
  | fuel + 1 =>
    rw [parseValue.eq_def]
    simp [skipWs, List.dropWhile_cons, jsonWs]

theorem skipWs_cons_of_not_ws (c : Char) (t : List Char) (h : jsonWs c = false) :
    skipWs (c :: t) = c :: t := by
  simp [skipWs, List.dropWhile_cons, h]

theorem serJson_head_facts (v : Json) :
    ∃ c t, serJson v = c :: t ∧ jsonWs c = false ∧ ¬ (c = ']') := by
  match v with
  | .null => exact ⟨'n', _, rfl, by decide, by decide⟩
  | .bool true => exact ⟨'t', _, rfl, by decide, by decide⟩
  | .bool false => exact ⟨'f', _, rfl, by decide, by decide⟩
  | .str s => exact ⟨'"', _, rfl, by decide, by decide⟩
  | .arr [] => exact ⟨'[', _, rfl, by decide, by decide⟩
  | .arr (w :: ws) => exact ⟨'[', _, rfl, by decide, by decide⟩
  | .obj [] => exact ⟨'{', _, rfl, by decide, by decide⟩
  | .obj (kv :: ms) => exact ⟨'{', _, rfl, by decide, by decide⟩
  | .num n =>
    by_cases hn : n < 0
    · refine ⟨'-', natToChars n.natAbs, ?_, by decide, by decide⟩
      show intToChars n = '-' :: natToChars n.natAbs
      simp [intToChars, hn]
    · match hmt : natToChars n.toNat with
      | [] => exact absurd hmt (natToChars_ne_nil n.toNat)
      | d :: ds =>
        have hd : d.isDigit = true := by
          refine natToChars_all_digits n.toNat d ?_
          rw [hmt]
          exact List.mem_cons_self d ds
        refine ⟨d, ds, ?_, ?_, isDigit_ne hd (by decide)⟩
        · show intToChars n = d :: ds
          rw [intToChars, if_neg hn, hmt]
        · simp [jsonWs, isDigit_ne hd (show (' ').isDigit = false by decide),
            isDigit_ne hd (show ('\t').isDigit = false by decide),
            isDigit_ne hd (show ('\n').isDigit = false by decide),
            isDigit_ne hd (show ('\r').isDigit = false by decide)]

theorem serElems_close_not_digit (vs : List Json) (rest : List Char) :
    ∀ c, (serElems vs ++ ']' :: rest).head? = some c → c.isDigit = false := by
  cases vs with
  | nil =>
    intro c hc
    simp only [serElems, List.nil_append, List.head?_cons, Option.some.injEq] at hc
    subst hc
    decide
  | cons w ws =>
    intro c hc
    simp only [serElems, List.cons_append, List.head?_cons, Option.some.injEq] at hc
    subst hc
    decide

theorem serMembers_close_not_digit (ms : List (List Char × Json)) (rest : List Char) :
    ∀ c, (serMembers ms ++ '}' :: rest).head? = some c → c.isDigit = false := by
  cases ms with
  | nil =>
    intro c hc
    simp only [serMembers, List.nil_append, List.head?_cons, Option.some.injEq] at hc
    subst hc
    decide
  | cons kv ms' =>
    intro c hc
    simp only [serMembers, List.cons_append, List.head?_cons, Option.some.injEq] at hc
    subst hc
    decide

mutual

theorem parseValue_serJson (v : Json) (fuel : Nat) (rest : List Char)
    (hfuel : 2 * (serJson v).length < fuel)
    (hrest : ∀ c, rest.head? = some c → c.isDigit = false) :
    parseValue fuel (serJson v ++ rest) = some (v, rest) := by
  match v with
  | .null => exact parseValue_null fuel (by omega) rest
  | .bool true => exact parseValue_true fuel (by omega) rest
  | .bool false => exact parseValue_false fuel (by omega) rest
  | .num n => exact parseValue_num n fuel (by omega) rest hrest
  | .str s => exact parseValue_str s fuel (by omega) rest
  | .arr [] => exact parseValue_arr_nil fuel (by omega) rest
  | .obj [] => exact parseValue_obj_nil fuel (by omega) rest
  | .arr (w :: ws) =>
    match fuel with
    | f + 1 =>
      have hser : serJson (.arr (w :: ws)) = '[' :: (serJson w ++ serElems ws ++ [']']) := rfl
      have hlen : (serJson (.arr (w :: ws))).length
          = 1 + (serJson w).length + (serElems ws).length + 1 := by
        rw [hser]
        simp
        omega
      obtain ⟨c0, t0, hh, hws, hne⟩ := serJson_head_facts w
      have hx : (serJson w ++ serElems ws ++ [']']) ++ rest
          = c0 :: (t0 ++ (serElems ws ++ ']' :: rest)) := by
        rw [hh]
        simp
      have hback : c0 :: (t0 ++ (serElems ws ++ ']' :: rest))
          = serJson w ++ serElems ws ++ ']' :: rest := by
        rw [hh]
        simp
      have helems := parseElems_serElems w ws f rest (by
        rw [hlen] at hfuel
        omega)
      rw [hser, List.cons_append, parseValue.eq_def, hx]
      simp only [List.head?_cons, List.tail_cons, Option.some.injEq,
        if_true, ite_true, if_false, ite_false]
      rw [skipWs_cons_of_not_ws c0 (t0 ++ (serElems ws ++ ']' :: rest)) hws]
      simp only [List.head?_cons, List.tail_cons, Option.some.injEq,
        if_true, ite_true, if_false, ite_false]
      rw [if_neg hne, hback, helems]
      rw [if_neg (show ¬ ('[' = '{') by decide)]
  | .obj (kv :: ms) =>
    match fuel with
    | f + 1 =>
      have hser : serJson (.obj (kv :: ms)) = '{' :: (serMember kv ++ serMembers ms ++ ['}']) := rfl
      have hlen : (serJson (.obj (kv :: ms))).length
          = 1 + (serMember kv).length + (serMembers ms).length + 1 := by
        rw [hser]
        simp
        omega
      have hkv : serMember kv = '"' :: (escChars kv.1 ++ ['"', ':', ' '] ++ serJson kv.2) := by
        match kv with
        | (k, v2) => rfl
      have hx : (serMember kv ++ serMembers ms ++ ['}']) ++ rest
          = '"' :: ((escChars kv.1 ++ ['"', ':', ' '] ++ serJson kv.2)
              ++ (serMembers ms ++ '}' :: rest)) := by
        rw [hkv]
        simp
      have hback : '"' :: ((escChars kv.1 ++ ['"', ':', ' '] ++ serJson kv.2)
              ++ (serMembers ms ++ '}' :: rest))
          = serMember kv ++ serMembers ms ++ '}' :: rest := by
        rw [hkv]
        simp
      have hmems := parseMembers_serMembers kv ms f rest (by
        rw [hlen] at hfuel
        omega)
      rw [hser, List.cons_append, parseValue.eq_def, hx]
      simp only [List.head?_cons, List.tail_cons, Option.some.injEq,
        if_true, ite_true, if_false, ite_false]
      rw [skipWs_cons_of_not_ws '"'
        ((escChars kv.1 ++ ['"', ':', ' '] ++ serJson kv.2)
          ++ (serMembers ms ++ '}' :: rest)) (by decide)]
      simp only [List.head?_cons, List.tail_cons, Option.some.injEq,
        if_true, ite_true, if_false, ite_false]
      rw [hback, hmems]
      rw [if_neg (show ¬ ('"' = '}') by decide)]
termination_by sizeOf v

theorem parseElems_serElems (v : Json) (vs : List Json) (fuel : Nat) (rest : List Char)
    (hfuel : 2 * ((serJson v).length + (serElems vs).length) + 2 ≤ fuel) :
    parseElems fuel (serJson v ++ serElems vs ++ ']' :: rest) = some (v :: vs, rest) := by
  match fuel with
  | f + 1 =>
    have h1 : parseValue f (serJson v ++ (serElems vs ++ ']' :: rest))
        = some (v, serElems vs ++ ']' :: rest) :=
      parseValue_serJson v f _ (by omega) (serElems_close_not_digit vs rest)
    rw [parseElems.eq_def, List.append_assoc]
    simp only []
    rw [h1]
    simp only []
    match hvs : vs with
    | [] =>
      rw [show serElems ([] : List Json) ++ ']' :: rest = ']' :: rest from rfl]
      rw [skipWs_cons_of_not_ws ']' rest (by decide)]
      simp only [List.head?_cons, List.tail_cons, Option.some.injEq,
        if_true, ite_true, if_false, ite_false]
      rw [if_neg (show ¬ (']' = ',') by decide)]
    | w :: ws =>
      have hx : serElems (w :: ws) ++ ']' :: rest
          = ',' :: ' ' :: (serJson w ++ serElems ws ++ ']' :: rest) := by
        show (',' :: ' ' :: (serJson w ++ serElems ws)) ++ ']' :: rest
          = ',' :: ' ' :: (serJson w ++ serElems ws ++ ']' :: rest)
        simp
      have hskip2 : skipWs (' ' :: (serJson w ++ serElems ws ++ ']' :: rest))
          = serJson w ++ serElems ws ++ ']' :: rest := by
        obtain ⟨c0, t0, hh, hws, _⟩ := serJson_head_facts w
        have hy : serJson w ++ serElems ws ++ ']' :: rest
            = c0 :: (t0 ++ (serElems ws ++ ']' :: rest)) := by
          rw [hh]
          simp
        rw [hy, skipWs, List.dropWhile_cons]
        simp only [show jsonWs ' ' = true by decide, if_true, ite_true]
        rw [List.dropWhile_cons]
        simp [hws]
      have hrec := parseElems_serElems w ws f rest (by
        have hl : (serElems (w :: ws)).length
            = 2 + (serJson w).length + (serElems ws).length := by
          show (',' :: ' ' :: (serJson w ++ serElems ws)).length
            = 2 + (serJson w).length + (serElems ws).length
          simp
          omega
        omega)
      rw [hx, skipWs_cons_of_not_ws ','
        (' ' :: (serJson w ++ serElems ws ++ ']' :: rest)) (by decide)]
      simp only [List.head?_cons, List.tail_cons, Option.some.injEq,
        if_true, ite_true, if_false, ite_false]
      rw [hskip2, hrec]
termination_by sizeOf v + sizeOf vs + 1
decreasing_by
  all_goals
    first
      | omega
      | (subst hvs
         simp only [List.cons.sizeOf_spec]
         omega)

theorem parseMembers_serMembers (kv : List Char × Json) (ms : List (List Char × Json))
    (fuel : Nat) (rest : List Char)
    (hfuel : 2 * ((serMember kv).length + (serMembers ms).length) ≤ fuel) :
    parseMembers fuel (serMember kv ++ serMembers ms ++ '}' :: rest)
      = some (kv :: ms, rest) := by
  match kv, fuel with
  | (k, v), 0 =>
    exfalso
    have hklen : (serMember (k, v)).length = 4 + (escChars k).length + (serJson v).length := by
      show ('"' :: (escChars k ++ ['"', ':', ' '] ++ serJson v)).length
        = 4 + (escChars k).length + (serJson v).length
      simp
      omega
    omega
  | (k, v), f + 1 =>
    have hkv : serMember (k, v) = '"' :: (escChars k ++ ['"', ':', ' '] ++ serJson v) := rfl
    have hklen : (serMember (k, v)).length
        = 4 + (escChars k).length + (serJson v).length := by
      rw [hkv]
      simp
      omega
    have hx : serMember (k, v) ++ serMembers ms ++ '}' :: rest
        = '"' :: (escChars k ++ '"' :: ':' :: ' '
            :: (serJson v ++ (serMembers ms ++ '}' :: rest))) := by
      rw [hkv]
      simp
    have hskip2 : skipWs (' ' :: (serJson v ++ (serMembers ms ++ '}' :: rest)))
        = serJson v ++ (serMembers ms ++ '}' :: rest) := by
      obtain ⟨c0, t0, hh, hws, _⟩ := serJson_head_facts v
      have hy : serJson v ++ (serMembers ms ++ '}' :: rest)
          = c0 :: (t0 ++ (serMembers ms ++ '}' :: rest)) := by
        rw [hh]
        simp
      rw [hy, skipWs, List.dropWhile_cons]
      simp only [show jsonWs ' ' = true by decide, if_true, ite_true]
      rw [List.dropWhile_cons]
      simp [hws]
    have h1 : parseValue f (serJson v ++ (serMembers ms ++ '}' :: rest))
        = some (v, serMembers ms ++ '}' :: rest) :=
      parseValue_serJson v f _ (by omega) (serMembers_close_not_digit ms rest)
    rw [parseMembers.eq_def, hx]
    simp only [List.head?_cons, List.tail_cons, Option.some.injEq,
      if_true, ite_true, if_false, ite_false]
    rw [parseStringBody_escChars]
    simp only []
    rw [skipWs_cons_of_not_ws ':'
      (' ' :: (serJson v ++ (serMembers ms ++ '}' :: rest))) (by decide)]
    simp only [List.head?_cons, List.tail_cons, Option.some.injEq,
      if_true, ite_true, if_false, ite_false]
    rw [hskip2, h1]
    simp only []
    match hms : ms with
    | [] =>
      rw [show serMembers ([] : List (List Char × Json)) ++ '}' :: rest
        = '}' :: rest from rfl]
      rw [skipWs_cons_of_not_ws '}' rest (by decide)]
      simp only [List.head?_cons, List.tail_cons, Option.some.injEq,
        if_true, ite_true, if_false, ite_false]
      rw [if_neg (show ¬ ('}' = ',') by decide)]
    | kv' :: ms' =>
      have hx2 : serMembers (kv' :: ms') ++ '}' :: rest
          = ',' :: ' ' :: (serMember kv' ++ serMembers ms' ++ '}' :: rest) := by
        show (',' :: ' ' :: (serMember kv' ++ serMembers ms')) ++ '}' :: rest
          = ',' :: ' ' :: (serMember kv' ++ serMembers ms' ++ '}' :: rest)
        simp
      have hskip3 : skipWs (' ' :: (serMember kv' ++ serMembers ms' ++ '}' :: rest))
          = serMember kv' ++ serMembers ms' ++ '}' :: rest := by
        match kv' with
        | (k', v') =>
          have hkv' : serMember (k', v')
              = '"' :: (escChars k' ++ ['"', ':', ' '] ++ serJson v') := rfl
          have hy : serMember (k', v') ++ serMembers ms' ++ '}' :: rest
              = '"' :: ((escChars k' ++ ['"', ':', ' '] ++ serJson v')
                  ++ (serMembers ms' ++ '}' :: rest)) := by
            rw [hkv']
            simp
          rw [hy, skipWs, List.dropWhile_cons]
          simp only [show jsonWs ' ' = true by decide, if_true, ite_true]
          rw [List.dropWhile_cons]
          simp [show jsonWs '"' = false by decide]
      have hrec := parseMembers_serMembers kv' ms' f rest (by
        have hl : (serMembers (kv' :: ms')).length
            = 2 + (serMember kv').length + (serMembers ms').length := by
          show (',' :: ' ' :: (serMember kv' ++ serMembers ms')).length
            = 2 + (serMember kv').length + (serMembers ms').length
          simp
          omega
        omega)
      rw [hx2, skipWs_cons_of_not_ws ','
        (' ' :: (serMember kv' ++ serMembers ms' ++ '}' :: rest)) (by decide)]
      simp only [List.head?_cons, List.tail_cons, Option.some.injEq,
        if_true, ite_true, if_false, ite_false]
      rw [hskip3, hrec]
termination_by sizeOf kv + sizeOf ms + 1
decreasing_by
  all_goals
    first
      | omega
      | (simp only [Prod.mk.sizeOf_spec]
         omega)
      | (subst hms
         simp only [List.cons.sizeOf_spec, Prod.mk.sizeOf_spec]
         omega)

end

/-! ### The extractor round-trip -/

theorem natToChars_ends_digit (n : Nat) :
    ∃ xs c, natToChars n = xs ++ [c] ∧ c.isDigit = true := by
  show ∃ xs c, natToCharsAux (n + 1) n = xs ++ [c] ∧ c.isDigit = true
  rw [natToCharsAux]
  by_cases h : n < 10
  · exact ⟨[], Nat.digitChar n, by simp [h], digitChar_isDigit n h⟩
  · refine ⟨natToCharsAux n (n / 10), Nat.digitChar (n % 10), by simp [h],
      digitChar_isDigit _ (Nat.mod_lt _ (by omega))⟩

theorem digit_not_pyWs {c : Char} (h : c.isDigit = true) : pyWs c = false := by
  simp [pyWs, isDigit_ne h (show (' ').isDigit = false by decide),
    isDigit_ne h (show ('\t').isDigit = false by decide),
    isDigit_ne h (show ('\n').isDigit = false by decide),
    isDigit_ne h (show ('\r').isDigit = false by decide),
    isDigit_ne h (show (Char.ofNat 11).isDigit = false by decide),
    isDigit_ne h (show (Char.ofNat 12).isDigit = false by decide)]

theorem serJson_last_facts (v : Json) :
    ∃ c, (serJson v).getLast? = some c ∧ pyWs c = false := by
  match v with
  | .null => exact ⟨'l', rfl, by decide⟩
  | .bool true => exact ⟨'e', rfl, by decide⟩
  | .bool false => exact ⟨'e', rfl, by decide⟩
  | .str s =>
    refine ⟨'"', ?_, by decide⟩
    show ('"' :: (escChars s ++ ['"'])).getLast? = some '"'
    rw [show '"' :: (escChars s ++ ['"']) = ('"' :: escChars s) ++ ['"'] by simp]
    exact List.getLast?_concat _
  | .arr [] => exact ⟨']', rfl, by decide⟩
  | .arr (w :: ws) =>
    refine ⟨']', ?_, by decide⟩
    show ('[' :: (serJson w ++ serElems ws ++ [']'])).getLast? = some ']'
    rw [show '[' :: (serJson w ++ serElems ws ++ [']'])
      = ('[' :: (serJson w ++ serElems ws)) ++ [']'] by simp]
    exact List.getLast?_concat _
  | .obj [] => exact ⟨'}', rfl, by decide⟩
  | .obj (kv :: ms) =>
    refine ⟨'}', ?_, by decide⟩
    show ('{' :: (serMember kv ++ serMembers ms ++ ['}'])).getLast? = some '}'
    rw [show '{' :: (serMember kv ++ serMembers ms ++ ['}'])
      = ('{' :: (serMember kv ++ serMembers ms)) ++ ['}'] by simp]
    exact List.getLast?_concat _
  | .num n =>
    obtain ⟨xs, c, hxs, hc⟩ := natToChars_ends_digit n.natAbs
    obtain ⟨xs2, c2, hxs2, hc2⟩ := natToChars_ends_digit n.toNat
    by_cases hn : n < 0
    · refine ⟨c, ?_, digit_not_pyWs hc⟩
      show (intToChars n).getLast? = some c
      rw [intToChars, if_pos hn, hxs,
        show '-' :: (xs ++ [c]) = ('-' :: xs) ++ [c] by simp]
      exact List.getLast?_concat _
    · refine ⟨c2, ?_, digit_not_pyWs hc2⟩
      show (intToChars n).getLast? = some c2
      rw [intToChars, if_neg hn, hxs2]
      exact List.getLast?_concat _

theorem pyStrip_eq_self (l : List Char)
    (h1 : ∀ c, l.head? = some c → pyWs c = false)
    (h2 : ∀ c, l.getLast? = some c → pyWs c = false) :
    pyStrip l = l := by
  match l with
  | [] => rfl
  | a :: t =>
    have ha := h1 a rfl
    have hd : (a :: t).dropWhile pyWs = a :: t := by
      simp [List.dropWhile_cons, ha]
    rw [pyStrip, hd]
    match hrev : (a :: t).reverse with
    | [] =>
      exact absurd hrev (by simp)
    | b :: rt =>
      have hb : pyWs b = false := by
        apply h2
        rw [← List.head?_reverse, hrev]
        rfl
      rw [List.dropWhile_cons]
      simp only [hb, if_false, ite_false, Bool.false_eq_true]
      rw [← hrev, List.reverse_reverse]

theorem digit_not_jsonWs {c : Char} (h : c.isDigit = true) : jsonWs c = false := by
  simp [jsonWs, isDigit_ne h (show (' ').isDigit = false by decide),
    isDigit_ne h (show ('\t').isDigit = false by decide),
    isDigit_ne h (show ('\n').isDigit = false by decide),
    isDigit_ne h (show ('\r').isDigit = false by decide)]

/-- The first character of a serialized value is not whitespace and does not
begin a code fence. -/
theorem serJson_head_strip (v : Json) :
    ∃ c t, serJson v = c :: t ∧ pyWs c = false
      ∧ fenceMarker.isPrefixOf (c :: t) = false := by
  have hpre : ∀ (c : Char) (t : List Char), ¬ (c = Char.ofNat 96) →
      fenceMarker.isPrefixOf (c :: t) = false := by
    intro c t hc
    simp only [fenceMarker, List.isPrefixOf]
    simp [Ne.symm hc]
  match v with
  | .null => exact ⟨'n', _, rfl, by decide, hpre _ _ (by decide)⟩
  | .bool true => exact ⟨'t', _, rfl, by decide, hpre _ _ (by decide)⟩
  | .bool false => exact ⟨'f', _, rfl, by decide, hpre _ _ (by decide)⟩
  | .str s => exact ⟨'"', _, rfl, by decide, hpre _ _ (by decide)⟩
  | .arr [] => exact ⟨'[', _, rfl, by decide, hpre _ _ (by decide)⟩
  | .arr (w :: ws) => exact ⟨'[', _, rfl, by decide, hpre _ _ (by decide)⟩
  | .obj [] => exact ⟨'{', _, rfl, by decide, hpre _ _ (by decide)⟩
  | .obj (kv :: ms) => exact ⟨'{', _, rfl, by decide, hpre _ _ (by decide)⟩
  | .num n =>
    by_cases hn : n < 0
    · refine ⟨'-', natToChars n.natAbs, ?_, by decide, hpre _ _ (by decide)⟩
      show intToChars n = '-' :: natToChars n.natAbs
      simp [intToChars, hn]
    · match hmt : natToChars n.toNat with
      | [] => exact absurd hmt (natToChars_ne_nil n.toNat)
      | d :: ds =>
        have hd : d.isDigit = true := by
          refine natToChars_all_digits n.toNat d ?_
          rw [hmt]
          exact List.mem_cons_self d ds
        refine ⟨d, ds, ?_, digit_not_pyWs hd,
          hpre _ _ (isDigit_ne hd (by decide))⟩
        show intToChars n = d :: ds
        rw [intToChars, if_neg hn, hmt]

theorem pyStrip_serJson (v : Json) : pyStrip (serJson v) = serJson v := by
  obtain ⟨c, t, hh, hws, _⟩ := serJson_head_strip v
  obtain ⟨d, hd, hdws⟩ := serJson_last_facts v
  refine pyStrip_eq_self _ ?_ ?_
  · intro c2 hc2
    rw [hh] at hc2
    simp only [List.head?_cons, Option.some.injEq] at hc2
    subst hc2
    exact hws
  · intro c2 hc2
    rw [hd] at hc2
    cases hc2
    exact hdws

theorem stripCodeFences_serJson (v : Json) :
    stripCodeFences (serJson v) = serJson v := by
  obtain ⟨c, t, hh, _, hpre⟩ := serJson_head_strip v
  rw [stripCodeFences, pyStrip_serJson]
  rw [hh, hpre]
  simp

theorem jsonLoads_serJson (v : Json) : jsonLoads (serJson v) = some v := by
  obtain ⟨c, t, hh, hws, _⟩ := serJson_head_facts v
  have hskip : skipWs (serJson v) = serJson v := by
    rw [hh]
    exact skipWs_cons_of_not_ws c t hws
  rw [jsonLoads, rawDecode, hskip]
  have := parseValue_serJson v (2 * (serJson v).length + 2) []
    (by omega) (by intro c hc; cases hc)
  rw [List.append_nil] at this
  rw [this]
  rfl

/-- `C5`: the extractor round-trip — for every JSON value `v`, running
`_parse_json_output` on the `json.dumps` serialization of `v` recovers `v`
exactly. -/
theorem c5_extractor_roundtrip (v : Json) :
    parseJsonOutput (jsonDumps v) = .ok v := by
  obtain ⟨c, t, hh, _, _⟩ := serJson_head_strip v
  rw [parseJsonOutput, jsonDumps, stripCodeFences_serJson, pyStrip_serJson]
  rw [if_neg (by rw [hh]; simp), jsonLoads_serJson]

/-! ### Fenced-block extraction (`C9`) -/

theorem digitChar_no_newline (d : Nat) (h : d < 16) :
    ¬ (Nat.digitChar d = '\n') ∧ ¬ (Nat.digitChar d = '\r') := by
  interval_cases d <;> exact ⟨by decide, by decide⟩

theorem escChar_no_newline (c : Char) :
    ∀ d ∈ escChar c, ¬ (d = '\n') ∧ ¬ (d = '\r') := by
  intro d hd
  by_cases h1 : c = '"'
  · simp only [escChar, if_pos h1] at hd
    fin_cases hd <;> exact ⟨by decide, by decide⟩
  · by_cases h2 : c = '\\'
    · simp only [escChar, if_neg h1, if_pos h2] at hd
      fin_cases hd <;> exact ⟨by decide, by decide⟩
    · by_cases h3 : c = '\n'
      · simp only [escChar, if_neg h1, if_neg h2, if_pos h3] at hd
        fin_cases hd <;> exact ⟨by decide, by decide⟩
      · by_cases h4 : c = '\t'
        · simp only [escChar, if_neg h1, if_neg h2, if_neg h3, if_pos h4] at hd
          fin_cases hd <;> exact ⟨by decide, by decide⟩
        · by_cases h5 : c = '\r'
          · simp only [escChar, if_neg h1, if_neg h2, if_neg h3, if_neg h4,
              if_pos h5] at hd
            fin_cases hd <;> exact ⟨by decide, by decide⟩
          · by_cases h6 : c.toNat = 8
            · simp only [escChar, if_neg h1, if_neg h2, if_neg h3, if_neg h4,
                if_neg h5, if_pos h6] at hd
              fin_cases hd <;> exact ⟨by decide, by decide⟩
            · by_cases h7 : c.toNat = 12
              · simp only [escChar, if_neg h1, if_neg h2, if_neg h3, if_neg h4,
                  if_neg h5, if_neg h6, if_pos h7] at hd
                fin_cases hd <;> exact ⟨by decide, by decide⟩
              · by_cases h8 : c.toNat < 32
                · simp only [escChar, if_neg h1, if_neg h2, if_neg h3, if_neg h4,
                    if_neg h5, if_neg h6, if_neg h7, if_pos h8] at hd
                  fin_cases hd
                  · exact ⟨by decide, by decide⟩
                  · exact ⟨by decide, by decide⟩
                  · exact ⟨by decide, by decide⟩
                  · exact ⟨by decide, by decide⟩
                  · exact digitChar_no_newline _ (by omega)
                  · exact digitChar_no_newline _ (by omega)
                · simp only [escChar, if_neg h1, if_neg h2, if_neg h3, if_neg h4,
                    if_neg h5, if_neg h6, if_neg h7, if_neg h8,
                    List.mem_singleton] at hd
                  subst hd
                  constructor
                  · intro heq
                    subst heq
                    exact h8 (by decide)
                  · intro heq
                    subst heq
                    exact h8 (by decide)

theorem escChars_no_newline (s : List Char) :
    ∀ d ∈ escChars s, ¬ (d = '\n') ∧ ¬ (d = '\r') := by
  induction s with
  | nil => intro d hd; cases hd
  | cons c cs ih =>
    intro d hd
    simp only [escChars, List.mem_append] at hd
    rcases hd with hd | hd
    · exact escChar_no_newline c d hd
    · exact ih d hd

theorem natToChars_no_newline (n : Nat) :
    ∀ d ∈ natToChars n, ¬ (d = '\n') ∧ ¬ (d = '\r') := by
  intro d hd
  have hdig := natToChars_all_digits n d hd
  exact ⟨isDigit_ne hdig (by decide), isDigit_ne hdig (by decide)⟩

theorem intToChars_no_newline (n : Int) :
    ∀ d ∈ intToChars n, ¬ (d = '\n') ∧ ¬ (d = '\r') := by
  intro d hd
  rw [intToChars] at hd
  by_cases hn : n < 0
  · rw [if_pos hn] at hd
    rcases List.mem_cons.mp hd with h | h
    · subst h; exact ⟨by decide, by decide⟩
    · exact natToChars_no_newline _ d h
  · rw [if_neg hn] at hd
    exact natToChars_no_newline _ d hd

mutual

theorem serJson_no_newline (v : Json) :
    ∀ d ∈ serJson v, ¬ (d = '\n') ∧ ¬ (d = '\r') := by
  match v with
  | .null =>
    intro d hd
    fin_cases hd <;> exact ⟨by decide, by decide⟩
  | .bool true =>
    intro d hd
    fin_cases hd <;> exact ⟨by decide, by decide⟩
  | .bool false =>
    intro d hd
    fin_cases hd <;> exact ⟨by decide, by decide⟩
  | .num n => exact intToChars_no_newline n
  | .str s =>
    intro d hd
    rw [show serJson (.str s) = '"' :: (escChars s ++ ['"']) from rfl] at hd
    rcases List.mem_cons.mp hd with h | h
    · subst h; exact ⟨by decide, by decide⟩
    · rcases List.mem_append.mp h with h | h
      · exact escChars_no_newline s d h
      · rcases List.mem_singleton.mp h with h
        subst h; exact ⟨by decide, by decide⟩
  | .arr [] =>
    intro d hd
    fin_cases hd <;> exact ⟨by decide, by decide⟩
  | .arr (w :: ws) =>
    intro d hd
    rw [show serJson (.arr (w :: ws))
      = '[' :: (serJson w ++ serElems ws ++ [']']) from rfl] at hd
    rcases List.mem_cons.mp hd with h | h
    · subst h; exact ⟨by decide, by decide⟩
    · rcases List.mem_append.mp h with h | h
      · rcases List.mem_append.mp h with h | h
        · exact serJson_no_newline w d h
        · exact serElems_no_newline ws d h
      · rcases List.mem_singleton.mp h with h
        subst h; exact ⟨by decide, by decide⟩
  | .obj [] =>
    intro d hd
    fin_cases hd <;> exact ⟨by decide, by decide⟩
  | .obj (kv :: ms) =>
    intro d hd
    rw [show serJson (.obj (kv :: ms))
      = '{' :: (serMember kv ++ serMembers ms ++ ['}']) from rfl] at hd
    rcases List.mem_cons.mp hd with h | h
    · subst h; exact ⟨by decide, by decide⟩
    · rcases List.mem_append.mp h with h | h
      · rcases List.mem_append.mp h with h | h
        · exact serMember_no_newline kv d h
        · exact serMembers_no_newline ms d h
      · rcases List.mem_singleton.mp h with h
        subst h; exact ⟨by decide, by decide⟩
termination_by sizeOf v

theorem serElems_no_newline (l : List Json) :
    ∀ d ∈ serElems l, ¬ (d = '\n') ∧ ¬ (d = '\r') := by
  match l with
  | [] => intro d hd; cases hd
  | w :: ws =>
    intro d hd
    rw [show serElems (w :: ws) = ',' :: ' ' :: (serJson w ++ serElems ws) from rfl] at hd
    rcases List.mem_cons.mp hd with h | h
    · subst h; exact ⟨by decide, by decide⟩
    · rcases List.mem_cons.mp h with h | h
      · subst h; exact ⟨by decide, by decide⟩
      · rcases List.mem_append.mp h with h | h
        · exact serJson_no_newline w d h
        · exact serElems_no_newline ws d h
termination_by sizeOf l

theorem serMember_no_newline (kv : List Char × Json) :
    ∀ d ∈ serMember kv, ¬ (d = '\n') ∧ ¬ (d = '\r') := by
  match kv with
  | (k, v) =>
    intro d hd
    rw [show serMember (k, v)
      = '"' :: (escChars k ++ ['"', ':', ' '] ++ serJson v) from rfl] at hd
    rcases List.mem_cons.mp hd with h | h
    · subst h; exact ⟨by decide, by decide⟩
    · rcases List.mem_append.mp h with h | h
      · rcases List.mem_append.mp h with h | h
        · exact escChars_no_newline k d h
        · fin_cases h <;> exact ⟨by decide, by decide⟩
      · exact serJson_no_newline v d h
termination_by sizeOf kv

theorem serMembers_no_newline (ms : List (List Char × Json)) :
    ∀ d ∈ serMembers ms, ¬ (d = '\n') ∧ ¬ (d = '\r') := by
  match ms with
  | [] => intro d hd; cases hd
  | kv :: ms2 =>
    intro d hd
    rw [show serMembers (kv :: ms2)
      = ',' :: ' ' :: (serMember kv ++ serMembers ms2) from rfl] at hd
    rcases List.mem_cons.mp hd with h | h
    · subst h; exact ⟨by decide, by decide⟩
    · rcases List.mem_cons.mp h with h | h
      · subst h; exact ⟨by decide, by decide⟩
      · rcases List.mem_append.mp h with h | h
        · exact serMember_no_newline kv d h
        · exact serMembers_no_newline ms2 d h
termination_by sizeOf ms

end

theorem splitlinesAux_no_newline (l1 : List Char)
    (hl : ∀ c ∈ l1, ¬ (c = '\n') ∧ ¬ (c = '\r')) :
    ∀ (acc rest : List Char),
      splitlinesAux (l1 ++ '\n' :: rest) acc
        = (acc.reverse ++ l1) :: splitlinesAux rest [] := by
  induction l1 with
  | nil =>
    intro acc rest
    rw [List.nil_append, splitlinesAux.eq_def]
    simp
  | cons c l1 ih =>
    intro acc rest
    have hc := hl c (List.mem_cons_self c l1)
    rw [List.cons_append, splitlinesAux.eq_def]
    simp only [hc.1, hc.2, if_false, ite_false, if_neg]
    rw [ih (fun d hd => hl d (List.mem_cons_of_mem c hd)) (c :: acc) rest]
    simp

theorem intercalate_singleton (x : List Char) :
    List.intercalate ['\n'] [x] = x := by
  simp [List.intercalate]

theorem fence_tag_no_newline (tag : List Char)
    (htag : ∀ c ∈ tag, ¬ (c = '\n') ∧ ¬ (c = '\r')) :
    ∀ c ∈ fenceMarker ++ tag, ¬ (c = '\n') ∧ ¬ (c = '\r') := by
  intro c hc
  rcases List.mem_append.mp hc with h | h
  · fin_cases h <;> exact ⟨by decide, by decide⟩
  · exact htag c h

/-- `C9` (amended): for every JSON value `v` and single-line language tag,
running the extractor on exactly one fenced block holding the serialization
of `v` — the fence markers on their own first and last lines, no
surrounding prose — returns `v`.  (With prose around the fence the fence is
not stripped and the left-to-right scan decides, see the counterexample.) -/
theorem c9_fenced_block_extraction (v : Json) (tag : List Char)
    (htag : ∀ c ∈ tag, ¬ (c = '\n') ∧ ¬ (c = '\r')) :
    parseJsonOutput (fenceMarker ++ (tag ++ '\n' :: (jsonDumps v ++ '\n' :: fenceMarker)))
      = .ok v := by
  have hstrip : pyStrip (fenceMarker ++ (tag ++ '\n' :: (jsonDumps v ++ '\n' :: fenceMarker)))
      = fenceMarker ++ (tag ++ '\n' :: (jsonDumps v ++ '\n' :: fenceMarker)) := by
    refine pyStrip_eq_self _ ?_ ?_
    · intro c hc
      cases hc
      decide
    · intro c hc
      rw [show fenceMarker ++ (tag ++ '\n' :: (jsonDumps v ++ '\n' :: fenceMarker))
        = (fenceMarker ++ (tag ++ '\n' :: (jsonDumps v
            ++ ['\n', Char.ofNat 96, Char.ofNat 96]))) ++ [Char.ofNat 96] by
          simp [fenceMarker]] at hc
      rw [List.getLast?_concat] at hc
      cases hc
      decide
  have hpref : fenceMarker.isPrefixOf
      (fenceMarker ++ (tag ++ '\n' :: (jsonDumps v ++ '\n' :: fenceMarker))) = true := by
    rw [List.isPrefixOf_iff_prefix]
    exact List.prefix_append _ _
  have hlines : pySplitlines
      (fenceMarker ++ (tag ++ '\n' :: (jsonDumps v ++ '\n' :: fenceMarker)))
      = [fenceMarker ++ tag, jsonDumps v, fenceMarker] := by
    rw [pySplitlines, show fenceMarker ++ (tag ++ '\n' :: (jsonDumps v ++ '\n' :: fenceMarker))
      = (fenceMarker ++ tag) ++ '\n' :: (jsonDumps v ++ '\n' :: fenceMarker) by simp]
    rw [splitlinesAux_no_newline (fenceMarker ++ tag) (fence_tag_no_newline tag htag) []
      (jsonDumps v ++ '\n' :: fenceMarker)]
    rw [splitlinesAux_no_newline (jsonDumps v) (serJson_no_newline v) [] fenceMarker]
    have hlast : splitlinesAux fenceMarker [] = [fenceMarker] := by
      rw [show fenceMarker = Char.ofNat 96 :: Char.ofNat 96 :: Char.ofNat 96 :: [] from rfl]
      rw [splitlinesAux.eq_def]
      simp only [show ¬ (Char.ofNat 96 = '\r') by decide,
        show ¬ (Char.ofNat 96 = '\n') by decide, if_neg, if_false, ite_false]
      rw [splitlinesAux.eq_def]
      simp only [show ¬ (Char.ofNat 96 = '\r') by decide,
        show ¬ (Char.ofNat 96 = '\n') by decide, if_neg, if_false, ite_false]
      rw [splitlinesAux.eq_def]
      simp only [show ¬ (Char.ofNat 96 = '\r') by decide,
        show ¬ (Char.ofNat 96 = '\n') by decide, if_neg, if_false, ite_false]
      rw [splitlinesAux.eq_def]
      simp
    rw [hlast]
    simp
  have hfences : stripCodeFences
      (fenceMarker ++ (tag ++ '\n' :: (jsonDumps v ++ '\n' :: fenceMarker)))
      = jsonDumps v := by
    rw [stripCodeFences, hstrip, hpref]
    rw [if_neg (by simp), hlines]
    rw [if_neg (by simp)]
    have hhead : ([fenceMarker ++ tag, jsonDumps v, fenceMarker].headD []) = fenceMarker ++ tag := rfl
    rw [hhead]
    rw [if_neg (by
      simp only [List.isPrefixOf_iff_prefix]
      simp [List.prefix_append])]
    have hlastd : ([fenceMarker ++ tag, jsonDumps v, fenceMarker].getLastD []) = fenceMarker := rfl
    rw [hlastd]
    rw [if_neg (by
      rw [show pyStrip fenceMarker = fenceMarker from rfl]
      simp [List.isPrefixOf_iff_prefix])]
    show pyStrip (List.intercalate ['\n']
      (([fenceMarker ++ tag, jsonDumps v, fenceMarker].drop 1).dropLast)) = jsonDumps v
    rw [show (([fenceMarker ++ tag, jsonDumps v, fenceMarker].drop 1).dropLast)
      = [jsonDumps v] from rfl]
    rw [intercalate_singleton]
    exact pyStrip_serJson v
  rw [parseJsonOutput, hfences, jsonDumps, pyStrip_serJson]
  obtain ⟨c, t, hh, _, _⟩ := serJson_head_strip v
  rw [if_neg (by rw [hh]; simp), jsonLoads_serJson]

/-- Witness for `c9_fenced_block_extraction`: a `json`-tagged fence holding
`{"value": 42}`. -/
theorem c9_fenced_block_extraction_witness :
    (∀ c ∈ "json".data, ¬ (c = '\n') ∧ ¬ (c = '\r'))
      ∧ parseJsonOutput (fenceMarker ++ ("json".data ++ '\n'
          :: (jsonDumps (.obj [("value".data, .num 42)]) ++ '\n' :: fenceMarker)))
        = .ok (.obj [("value".data, .num 42)]) :=
  ⟨by decide, c9_fenced_block_extraction (.obj [("value".data, .num 42)]) "json".data
    (by decide)⟩

/-- `C9` counterexample: prose before the fence defeats fence stripping, and
the left-to-right scan accepts the first decodable candidate inside the
prose — here the empty object of the text `note \x7b\x7d then` — instead of
the fenced value `[1, 2]`.  So the extractor does not return the fenced
value for every fenced input with surrounding prose. -/
theorem c9_prose_shadows_fence_counterexample :
    parseJsonOutput "note \x7b\x7d then\n\x60\x60\x60json\n[1, 2]\n\x60\x60\x60".data
        = .ok (Json.obj [])
      ∧ Json.obj [] ≠ Json.arr [Json.num 1, Json.num 2] :=
  ⟨rfl, fun h => Json.noConfusion h⟩

/-! ### The agent execution loop -/

theorem pySliceLast_singleton {α : Type} (k : Nat) (m : α) :
    pySliceLast k [m] = [m] := by
  by_cases hk : k = 0
  · simp [pySliceLast, hk]
  · have h1 : 1 - k = 0 := by omega
    simp [pySliceLast, hk, h1]

/-- Exhausting the iteration budget on tool-calling responses raises the
max-iterations error after exactly `remaining` further generate calls. -/
theorem agentLoop_all_tool_calls (llm : Nat → LLMResponse) (toolsDict : List Tool)
    (os : Option OutputSchemaSpec) :
    ∀ (remaining calls : Nat) (msgs : List Message) (mem : BufferMemory),
      (∀ i, calls ≤ i → i < calls + remaining → (llm i).toolCalls ≠ []) →
      agentLoop llm toolsDict os remaining calls msgs mem
        = ⟨.failure "Max iterations reached", mem.messages, calls + remaining⟩ := by
  intro remaining
  induction remaining with
  | zero =>
    intro calls msgs mem _
    simp [agentLoop]
  | succ rem ih =>
    intro calls msgs mem h
    have hne : (llm calls).toolCalls ≠ [] := h calls (by omega) (by omega)
    have hne' : ¬((llm calls).toolCalls.isEmpty = true) := by
      rcases hmt : (llm calls).toolCalls with _ | ⟨a, t⟩
      · exact absurd hmt hne
      · simp [hmt]
    rw [agentLoop]
    simp only [hne', Bool.false_eq_true, if_false, ite_false]
    rw [ih (calls + 1) _ mem (fun i h1 h2 => h i (by omega) (by omega))]
    have : calls + 1 + rem = calls + (rem + 1) := by omega
    rw [this]

/-- The loop never invokes `generate` more than `calls + remaining` times. -/
theorem agentLoop_calls_le (llm : Nat → LLMResponse) (toolsDict : List Tool)
    (os : Option OutputSchemaSpec) :
    ∀ (remaining calls : Nat) (msgs : List Message) (mem : BufferMemory),
      (agentLoop llm toolsDict os remaining calls msgs mem).generateCalls
        ≤ calls + remaining := by
  intro remaining
  induction remaining with
  | zero =>
    intro calls msgs mem
    simp [agentLoop]
  | succ rem ih =>
    intro calls msgs mem
    rw [agentLoop]
    by_cases hne : (llm calls).toolCalls.isEmpty
    · simp only [hne, if_true, ite_true]
      show calls + 1 ≤ calls + (rem + 1)
      omega
    · simp only [hne, if_false, ite_false, Bool.false_eq_true]
      calc (agentLoop llm toolsDict os rem (calls + 1) _ mem).generateCalls
          ≤ calls + 1 + rem := ih (calls + 1) _ mem
        _ = calls + (rem + 1) := by omega

/-- When the first `k` responses carry tool calls and response `k` is a
final answer, the loop stops there: the final text is appended to memory,
extracted and validated, after `k + 1` generate calls. -/
theorem agentLoop_first_final (llm : Nat → LLMResponse) (toolsDict : List Tool)
    (os : Option OutputSchemaSpec) :
    ∀ (k remaining calls : Nat) (msgs : List Message) (mem : BufferMemory),
      k < remaining →
      (∀ i, i < k → (llm (calls + i)).toolCalls ≠ []) →
      (llm (calls + k)).toolCalls = [] →
      agentLoop llm toolsDict os remaining calls msgs mem
        = ⟨finalOutcome os ((llm (calls + k)).content.getD ""),
            (mem.add { role := .assistant, content := (llm (calls + k)).content.getD "" }).messages,
            calls + k + 1⟩ := by
  intro k
  induction k with
  | zero =>
    intro remaining calls msgs mem hk _ hfin
    match remaining with
    | rem + 1 =>
      rw [agentLoop]
      simp only [Nat.add_zero] at hfin
      simp only [hfin, List.isEmpty_nil, if_true, ite_true]
      rfl
  | succ k ih =>
    intro remaining calls msgs mem hk hpre hfin
    match remaining with
    | rem + 1 =>
      have hne : (llm calls).toolCalls ≠ [] := by
        have := hpre 0 (by omega)
        simpa using this
      have hne' : ¬((llm calls).toolCalls.isEmpty = true) := by
        rcases hmt : (llm calls).toolCalls with _ | ⟨a, t⟩
        · exact absurd hmt hne
        · simp [hmt]
      rw [agentLoop]
      simp only [hne', Bool.false_eq_true, if_false, ite_false]
      rw [ih rem (calls + 1) _ mem (by omega)
        (fun i hi => by
          have := hpre (i + 1) (by omega)
          have heq : calls + (i + 1) = calls + 1 + i := by omega
          rw [heq] at this
          exact this)
        (by
          have heq : calls + (k + 1) = calls + 1 + k := by omega
          rw [← heq]
          exact hfin)]
      have heq : calls + 1 + k = calls + (k + 1) := by omega
      rw [heq]

/-- A run that succeeds leaves exactly one assistant message in memory,
provided memory starts cleared (which `agentRun` guarantees). -/
theorem agentLoop_success_memory (llm : Nat → LLMResponse) (toolsDict : List Tool)
    (os : Option OutputSchemaSpec) :
    ∀ (remaining calls : Nat) (msgs : List Message) (mem : BufferMemory),
      mem.messages = [] →
      ∀ v, (agentLoop llm toolsDict os remaining calls msgs mem).outcome = .success v →
      ∃ t, (agentLoop llm toolsDict os remaining calls msgs mem).memory
        = [{ role := .assistant, content := t }] := by
  intro remaining
  induction remaining with
  | zero =>
    intro calls msgs mem _ v hv
    rw [agentLoop] at hv
    cases hv
  | succ rem ih =>
    intro calls msgs mem hmem v hv
    rw [agentLoop] at hv ⊢
    by_cases hne : (llm calls).toolCalls.isEmpty
    · simp only [hne, if_true, ite_true] at hv ⊢
      refine ⟨(llm calls).content.getD "", ?_⟩
      show (mem.add _).messages = _
      rw [BufferMemory.add]
      simp only [hmem, List.nil_append]
      exact pySliceLast_singleton _ _
    · simp only [hne, if_false, ite_false, Bool.false_eq_true] at hv ⊢
      exact ih (calls + 1) _ mem hmem v hv

/-- `C1`: the execution loop makes at most `max_iterations` generate calls,
and when every response within the budget carries tool calls (and input
validation passed) it fails with `Max iterations reached` after exactly
`max_iterations` calls — it never runs forever. -/
theorem c1_loop_bounded (a : AgentRunConfig) (m : Nat) :
    (agentRun a m).generateCalls ≤ m
      ∧ (a.inputCheckError = none →
          (∀ i, i < m → (a.llm i).toolCalls ≠ []) →
          (agentRun a m).outcome = .failure "Max iterations reached"
            ∧ (agentRun a m).generateCalls = m) := by
  rw [agentRun]
  match hin : a.inputCheckError with
  | some e =>
    refine ⟨Nat.zero_le m, ?_⟩
    intro h
    cases h
  | none =>
    constructor
    · have := agentLoop_calls_le a.llm (buildToolsDict a.tools) a.outputSchema
        m 0 ((match a.outputSchema with
              | some os => [os.schemaMessage]
              | none => []) ++ a.promptMessages ++ a.memory.clear.messages)
        a.memory.clear
      simpa using this
    · intro _ halltool
      rw [agentLoop_all_tool_calls a.llm (buildToolsDict a.tools) a.outputSchema
        m 0 _ a.memory.clear (fun i h1 h2 => halltool i (by omega))]
      exact ⟨rfl, by simp⟩

/-- Witness for `c1_loop_bounded`: two tool-calling responses against a
budget of two exhaust the loop. -/
theorem c1_loop_bounded_witness :
    (agentRun cfgLoopEx 2).outcome = .failure "Max iterations reached"
      ∧ (agentRun cfgLoopEx 2).generateCalls = 2 :=
  (c1_loop_bounded cfgLoopEx 2).2 rfl
    (fun i _ => by simp [cfgLoopEx, toolCallRespEx])

/-- `C2`: `_execute_tool` always returns an in-band result string — it is a
total function, so no exception escapes the dispatch step — and the string
is exactly one of: the invalid-JSON-arguments error, the unknown-tool error
listing the available names, the execution error, or the rendering of the
tool's result (`json.dumps` for dict/list, the literal `null` for `None`,
`str(...)` otherwise). -/
theorem c2_execute_tool_in_band (toolsDict : List Tool) (tc : ToolCall) :
    ((∃ detail, jsonLoadsStr tc.function.arguments = .error detail
        ∧ executeTool toolsDict tc = "Error: Invalid JSON arguments - " ++ detail)
      ∨ (∃ args, jsonLoadsStr tc.function.arguments = .ok args
          ∧ toolsDict.find? (fun t => t.name = tc.function.name) = none
          ∧ executeTool toolsDict tc = "Error: Tool '" ++ tc.function.name
              ++ "' not found. Available: "
              ++ commaJoin (toolsDict.map (fun t => t.name)))
      ∨ (∃ args tool detail, jsonLoadsStr tc.function.arguments = .ok args
          ∧ toolsDict.find? (fun t => t.name = tc.function.name) = some tool
          ∧ tool.run args = .error detail
          ∧ executeTool toolsDict tc
              = "Error executing " ++ tc.function.name ++ ": " ++ detail)
      ∨ (∃ args tool result, jsonLoadsStr tc.function.arguments = .ok args
          ∧ toolsDict.find? (fun t => t.name = tc.function.name) = some tool
          ∧ tool.run args = .ok result
          ∧ executeTool toolsDict tc = serializeToolResult result))
    ∧ (∀ ms, serializeToolResult (.obj ms) = ⟨jsonDumps (.obj ms)⟩)
    ∧ (∀ l, serializeToolResult (.arr l) = ⟨jsonDumps (.arr l)⟩)
    ∧ serializeToolResult .null = "null"
    ∧ (∀ s, serializeToolResult (.str s) = ⟨s⟩)
    ∧ (∀ n, serializeToolResult (.num n) = ⟨intToChars n⟩) := by
  refine ⟨?_, fun ms => rfl, fun l => rfl, rfl, fun s => rfl, fun n => rfl⟩
  match hargs : jsonLoadsStr tc.function.arguments with
  | .error detail =>
    refine Or.inl ⟨detail, ?_, ?_⟩
    · first | rfl | exact hargs
    · rw [executeTool, hargs]
  | .ok args =>
    match hfind : toolsDict.find? (fun t => t.name = tc.function.name) with
    | none =>
      refine Or.inr (Or.inl ⟨args, ?_, ?_, ?_⟩)
      · first | rfl | exact hargs
      · first | rfl | exact hfind
      · rw [executeTool, hargs, hfind]
    | some tool =>
      match hrun : tool.run args with
      | .error detail =>
        refine Or.inr (Or.inr (Or.inl ⟨args, tool, detail, ?_, ?_, ?_, ?_⟩))
        · first | rfl | exact hargs
        · first | rfl | exact hfind
        · first | rfl | exact hrun
        · rw [executeTool, hargs, hfind]
          simp only []
          rw [hrun]
      | .ok result =>
        refine Or.inr (Or.inr (Or.inr ⟨args, tool, result, ?_, ?_, ?_, ?_⟩))
        · first | rfl | exact hargs
        · first | rfl | exact hfind
        · first | rfl | exact hrun
        · rw [executeTool, hargs, hfind]
          simp only []
          rw [hrun]

/-- `C4`: a successful run leaves exactly one message in memory — the final
assistant answer — and in particular no tool-role message and no assistant
message carrying tool calls is ever persisted, even when tool calls
occurred during the run. -/
theorem c4_memory_single_final (a : AgentRunConfig) (m : Nat) (v : Json)
    (h : (agentRun a m).outcome = .success v) :
    ∃ t, (agentRun a m).memory = [{ role := .assistant, content := t }]
      ∧ ∀ msg ∈ (agentRun a m).memory, msg.role ≠ .tool ∧ msg.toolCalls = [] := by
  rw [agentRun] at h ⊢
  match hin : a.inputCheckError with
  | some e =>
    rw [hin] at h
    exact RunOutcome.noConfusion h
  | none =>
    rw [hin] at h
    obtain ⟨t, ht⟩ := agentLoop_success_memory a.llm (buildToolsDict a.tools)
      a.outputSchema m 0 ((match a.outputSchema with
        | some os => [os.schemaMessage]
        | none => []) ++ a.promptMessages ++ a.memory.clear.messages)
      a.memory.clear rfl v h
    refine ⟨t, ht, ?_⟩
    intro msg hmsg
    have hmsg2 : msg ∈ [({ role := .assistant, content := t } : Message)] := by
      rw [← ht]
      exact hmsg
    rcases List.mem_singleton.mp hmsg2 with hm
    subst hm
    exact ⟨(by intro hr; cases hr), rfl⟩

/-- Witness for `c4_memory_single_final`: the immediate `42` answer
succeeds and memory holds exactly that assistant message. -/
theorem c4_memory_single_final_witness :
    ((agentRun cfgFinalEx 1).outcome = .success (.num 42))
      ∧ ∃ t, (agentRun cfgFinalEx 1).memory = [{ role := .assistant, content := t }]
          ∧ ∀ msg ∈ (agentRun cfgFinalEx 1).memory,
              msg.role ≠ .tool ∧ msg.toolCalls = [] :=
  ⟨rfl, c4_memory_single_final cfgFinalEx 1 (.num 42) rfl⟩

/-- `C6`: structured-output extraction is unconditional — when the first
final answer cannot be parsed as JSON, the run fails with the parse error
even though no output schema is configured. -/
theorem c6_extraction_unconditional (a : AgentRunConfig) (m k : Nat) (e : List Char)
    (hin : a.inputCheckError = none)
    (hos : a.outputSchema = none)
    (hk : k < m)
    (hpre : ∀ i, i < k → (a.llm i).toolCalls ≠ [])
    (hfin : (a.llm k).toolCalls = [])
    (hparse : parseJsonOutput ((a.llm k).content.getD "").data = .error e) :
    (agentRun a m).outcome = .failure ⟨e⟩ := by
  rw [agentRun, hin]
  rw [agentLoop_first_final a.llm (buildToolsDict a.tools) a.outputSchema
    k m 0 _ a.memory.clear (by omega)
    (fun i hi => by simpa using hpre i hi) (by simpa using hfin)]
  show finalOutcome a.outputSchema ((a.llm (0 + k)).content.getD "") = .failure ⟨e⟩
  rw [finalOutcome]
  simp only [Nat.zero_add]
  rw [hparse]

/-- Witness for `c6_extraction_unconditional`: the plain answer `hello`
with no output schema fails with the JSON parse error. -/
theorem c6_extraction_unconditional_witness :
    (agentRun cfgHelloEx 5).outcome = .failure ⟨parseFailMsg "hello".data⟩ :=
  c6_extraction_unconditional cfgHelloEx 5 0 (parseFailMsg "hello".data)
    rfl rfl (by omega) (fun i hi => absurd hi (Nat.not_lt_zero i)) rfl rfl

/-- `C10` (implicit): error effects on memory are not atomic — when the
model returns a final answer but extraction or output validation then
fails, the final assistant message has already been appended to memory, so
the failed run still leaves it there. -/
theorem c10_failed_run_keeps_final_message (a : AgentRunConfig) (m k : Nat)
    (hin : a.inputCheckError = none)
    (hk : k < m)
    (hpre : ∀ i, i < k → (a.llm i).toolCalls ≠ [])
    (hfin : (a.llm k).toolCalls = [])
    (hfail : (∃ e, parseJsonOutput ((a.llm k).content.getD "").data = .error e)
      ∨ (∃ v emsg, parseJsonOutput ((a.llm k).content.getD "").data = .ok v
          ∧ outputValidate a.outputSchema v = some emsg)) :
    (∃ err, (agentRun a m).outcome = .failure err)
      ∧ (agentRun a m).memory
        = [{ role := .assistant, content := (a.llm k).content.getD "" }] := by
  rw [agentRun, hin]
  rw [agentLoop_first_final a.llm (buildToolsDict a.tools) a.outputSchema
    k m 0 _ a.memory.clear (by omega)
    (fun i hi => by simpa using hpre i hi) (by simpa using hfin)]
  constructor
  · show ∃ err, finalOutcome a.outputSchema ((a.llm (0 + k)).content.getD "") = .failure err
    rw [finalOutcome]
    simp only [Nat.zero_add]
    rcases hfail with ⟨e, he⟩ | ⟨v, emsg, hv, hval⟩
    · rw [he]
      exact ⟨⟨e⟩, rfl⟩
    · rw [hv]
      simp only []
      rw [hval]
      exact ⟨"Invalid output: " ++ emsg, rfl⟩
  · show ((a.memory.clear.add _)).messages = _
    rw [BufferMemory.clear, BufferMemory.add]
    simp only [List.nil_append, Nat.zero_add]
    exact pySliceLast_singleton _ _

/-- Witness for `c10_failed_run_keeps_final_message`: the unparsable
`hello` answer fails the run, yet memory holds the assistant message. -/
theorem c10_failed_run_keeps_final_message_witness :
    (∃ err, (agentRun cfgHelloEx 5).outcome = .failure err)
      ∧ (agentRun cfgHelloEx 5).memory
        = [{ role := .assistant, content := "hello" }] :=
  c10_failed_run_keeps_final_message cfgHelloEx 5 0 rfl (by omega)
    (fun i hi => absurd hi (Nat.not_lt_zero i)) rfl
    (Or.inl ⟨parseFailMsg "hello".data, rfl⟩)

/-! ### The orchestration validator: validity and the entry rule -/

/-- `C7`: validity is exactly the error list being empty — warnings never
affect it — a missing entry node produces the `No entry node specified`
warning and no error, and an entry-less graph with no other violations is
still valid. -/
theorem c7_valid_iff_no_errors (g : OGraph) (agentExists : String → Bool) :
    ((validateOrchestration g agentExists).valid = true
        ↔ (validateOrchestration g agentExists).errors = [])
      ∧ (g.entryNode = none →
          "No entry node specified" ∈ (validateOrchestration g agentExists).warnings)
      ∧ (validateOrchestration c7EntrylessGraph agentExists).valid = true := by
  refine ⟨?_, ?_, ?_⟩
  · show (validateOrchestration g agentExists).errors.isEmpty = true
      ↔ (validateOrchestration g agentExists).errors = []
    exact List.isEmpty_iff
  · intro he
    show "No entry node specified"
      ∈ (entryCheck g.entryNode (g.nodes.map (fun n => n.id))).2 ++ orphanWarnings g
    rw [he]
    simp [entryCheck]
  · simp [validateOrchestration, c7EntrylessGraph, entryCheck, edgeRefErrors,
      cycleErrors, cycleOuter, hasCycle, cycleEdgeLoop, agentRefErrors,
      orphanWarnings, dedupFirst, allIds]

/-- Witness for `c7_valid_iff_no_errors`: the entry-less one-node graph
draws the warning and is still valid. -/
theorem c7_valid_iff_no_errors_witness :
    "No entry node specified"
        ∈ (validateOrchestration c7EntrylessGraph (fun _ => true)).warnings
      ∧ (validateOrchestration c7EntrylessGraph (fun _ => true)).valid = true :=
  ⟨(c7_valid_iff_no_errors c7EntrylessGraph (fun _ => true)).2.1 rfl,
   (c7_valid_iff_no_errors c7EntrylessGraph (fun _ => true)).2.2⟩

/-! ### Cycle detection: soundness -/

/-- Every entry of a chained recursion stack reaches the top entry. -/
theorem stackChain_mem_reaches (edges : List OEdge) :
    ∀ (t : List String) (x a : String), stackChain edges (x :: t) → a ∈ x :: t →
      Relation.ReflTransGen (edgeStepR edges) a x := by
  intro t
  induction t with
  | nil =>
    intro x a _ ha
    rcases List.mem_singleton.mp ha with h
    subst h
    exact Relation.ReflTransGen.refl
  | cons b t2 ih =>
    intro x a hchain ha
    have h2 : edgeStepR edges b x ∧ stackChain edges (b :: t2) := hchain
    rcases List.mem_cons.mp ha with h | h
    · subst h
      exact Relation.ReflTransGen.refl
    · exact Relation.ReflTransGen.tail (ih b a h2.2 h) h2.1

/-- Soundness of the edge loop, assuming soundness of `hasCycle` at the
same fuel. -/
theorem cycleEdgeLoop_sound (edges : List OEdge) (fuel : Nat)
    (hH : ∀ (nodeId : String) (visited recStack : List String),
      stackChain edges (nodeId :: recStack) →
      (hasCycle edges fuel nodeId visited recStack).1 = true →
      ∃ c, Relation.TransGen (edgeStepR edges) c c) :
    ∀ (pending : List OEdge) (nodeId : String) (visited rs0 : List String),
      (∀ e ∈ pending, e ∈ edges) → stackChain edges (nodeId :: rs0) →
      (cycleEdgeLoop edges fuel pending nodeId visited (nodeId :: rs0)).1 = true →
      ∃ c, Relation.TransGen (edgeStepR edges) c c := by
  intro pending
  induction pending with
  | nil =>
    intro nodeId visited rs0 _ _ hres
    simp [cycleEdgeLoop] at hres
  | cons e rest ih =>
    intro nodeId visited rs0 hsub hchain hres
    simp only [cycleEdgeLoop] at hres
    by_cases h1 : e.source = nodeId
    · rw [if_pos h1] at hres
      by_cases h2 : e.target ∈ visited
      · rw [if_pos h2] at hres
        by_cases h3 : e.target ∈ nodeId :: rs0
        · refine ⟨e.target, Relation.TransGen.tail'
            (stackChain_mem_reaches edges rs0 nodeId e.target hchain h3) ?_⟩
          exact ⟨e, hsub e (List.mem_cons_self e rest), h1, rfl⟩
        · rw [if_neg h3] at hres
          exact ih nodeId visited rs0 (fun x hx => hsub x (List.mem_cons_of_mem e hx))
            hchain hres
      · rw [if_neg h2] at hres
        rcases hrec : hasCycle edges fuel e.target visited (nodeId :: rs0) with ⟨b, v⟩
        rw [hrec] at hres
        cases b
        · exact ih nodeId v rs0 (fun x hx => hsub x (List.mem_cons_of_mem e hx))
            hchain hres
        · refine hH e.target visited (nodeId :: rs0) ?_ (by rw [hrec])
          exact (⟨⟨e, hsub e (List.mem_cons_self e rest), h1, rfl⟩, hchain⟩ :
            edgeStepR edges nodeId e.target ∧ stackChain edges (nodeId :: rs0))
    · rw [if_neg h1] at hres
      exact ih nodeId visited rs0 (fun x hx => hsub x (List.mem_cons_of_mem e hx))
        hchain hres

/-- If `has_cycle` reports a cycle, the edge relation has one. -/
theorem hasCycle_sound (edges : List OEdge) :
    ∀ (fuel : Nat) (nodeId : String) (visited recStack : List String),
      stackChain edges (nodeId :: recStack) →
      (hasCycle edges fuel nodeId visited recStack).1 = true →
      ∃ c, Relation.TransGen (edgeStepR edges) c c := by
  intro fuel
  induction fuel with
  | zero =>
    intro nodeId visited recStack _ hres
    simp [hasCycle] at hres
  | succ f ih =>
    intro nodeId visited recStack hchain hres
    simp only [hasCycle] at hres
    exact cycleEdgeLoop_sound edges f ih edges nodeId (nodeId :: visited) recStack
      (fun e he => he) hchain hres

/-- If the outer traversal reports a cycle, the edge relation has one. -/
theorem cycleOuter_sound (edges : List OEdge) (fuel : Nat) :
    ∀ (ids visited : List String),
      cycleOuter edges fuel ids visited = true →
      ∃ c, Relation.TransGen (edgeStepR edges) c c := by
  intro ids
  induction ids with
  | nil =>
    intro visited h
    simp [cycleOuter] at h
  | cons nid rest ih =>
    intro visited h
    simp only [cycleOuter] at h
    by_cases hv : nid ∈ visited
    · rw [if_pos hv] at h
      exact ih visited h
    · rw [if_neg hv] at h
      rcases hrec : hasCycle edges fuel nid visited [] with ⟨b, v⟩
      rw [hrec] at h
      cases b
      · exact ih v h
      · exact hasCycle_sound edges fuel nid visited [] trivial (by rw [hrec])

/-! ### Cycle detection: completeness -/

/-- Growing the visited list can only shrink the missing count. -/
theorem missCount_mono (U v1 v2 : List String) (h : ∀ x ∈ v1, x ∈ v2) :
    missCount U v2 ≤ missCount U v1 := by
  apply List.countP_mono_left
  intro a _ hp
  simp only [decide_eq_true_eq] at hp ⊢
  exact fun hin => hp (h a hin)

/-- Visiting a so-far-unvisited id of `U` strictly shrinks the missing
count. -/
theorem missCount_cons_lt (U : List String) (a : String) (visited : List String)
    (haU : a ∈ U) (hav : a ∉ visited) :
    missCount U (a :: visited) < missCount U visited := by
  induction U with
  | nil => cases haU
  | cons u U2 ih =>
    simp only [missCount, List.countP_cons] at *
    by_cases hu : u = a
    · subst hu
      have h1 : decide (u ∉ u :: visited) = false := by simp
      have h2 : decide (u ∉ visited) = true := by simpa using hav
      rw [h1, h2]
      have hmono := missCount_mono U2 visited (u :: visited)
        (fun x hx => List.mem_cons_of_mem u hx)
      simp only [missCount] at hmono
      simp only [Bool.false_eq_true, if_false, ite_false, if_true, ite_true]
      omega
    · have haU2 : a ∈ U2 := by
        rcases List.mem_cons.mp haU with h | h
        · exact absurd h.symm hu
        · exact h
      have heq : decide (u ∉ a :: visited) = decide (u ∉ visited) := by
        apply decide_eq_decide.mpr
        simp [List.mem_cons, hu]
      rw [heq]
      have := ih haU2
      omega

/-- A walk that starts at a finished node stays finished. -/
theorem reach_stays_finished (edges : List OEdge) (V R : List String)
    (hc : finishedClosed edges V R) (a b : String)
    (hab : Relation.ReflTransGen (edgeStepR edges) a b)
    (haV : a ∈ V) (haR : a ∉ R) : b ∈ V ∧ b ∉ R := by
  induction hab with
  | refl => exact ⟨haV, haR⟩
  | tail h1 h2 ih =>
    rcases ih with ⟨hV, hR⟩
    rcases h2 with ⟨e, he, hsrc, htgt⟩
    have hres := hc e he (by rw [hsrc]; exact hV) (by rw [hsrc]; exact hR)
    rw [htgt] at hres
    exact hres

/-- The edge-loop part of the completeness invariant, given the `hasCycle`
guarantee at the same fuel. -/
theorem cycleEdgeLoop_complete (edges : List OEdge) (U : List String)
    (hT : ∀ e ∈ edges, e.target ∈ U) (fuel : Nat)
    (hH : hasCyclePost edges U fuel) :
    ∀ (pending : List OEdge) (nodeId : String) (visited rs0 : List String),
      (∀ e ∈ pending, e ∈ edges) →
      nodeId ∈ visited → (∀ x ∈ rs0, x ∈ visited) → (∀ x ∈ visited, x ∈ U) →
      missCount U visited + 1 ≤ fuel →
      finishedClosed edges visited (nodeId :: rs0) →
      finishedAcyclic edges visited (nodeId :: rs0) →
      (∀ e ∈ edges, e.source = nodeId →
        e ∈ pending ∨ (e.target ∈ visited ∧ e.target ∉ nodeId :: rs0)) →
      ∀ v2, cycleEdgeLoop edges fuel pending nodeId visited (nodeId :: rs0)
          = (false, v2) →
        (∀ x ∈ visited, x ∈ v2) ∧ (∀ x ∈ v2, x ∈ U)
          ∧ finishedClosed edges v2 (nodeId :: rs0)
          ∧ finishedAcyclic edges v2 (nodeId :: rs0)
          ∧ (∀ e ∈ edges, e.source = nodeId →
              e.target ∈ v2 ∧ e.target ∉ nodeId :: rs0) := by
  intro pending
  induction pending with
  | nil =>
    intro nodeId visited rs0 _ _ _ hvU _ hcl hac hproc v2 hres
    simp only [cycleEdgeLoop, Prod.mk.injEq] at hres
    rcases hres with ⟨_, hv⟩
    subst hv
    refine ⟨fun x hx => hx, hvU, hcl, hac, ?_⟩
    intro e he hsrc
    rcases hproc e he hsrc with h | h
    · cases h
    · exact h
  | cons e rest ih =>
    intro nodeId visited rs0 hsub hnv hrs hvU hfuel hcl hac hproc v2 hres
    simp only [cycleEdgeLoop] at hres
    by_cases h1 : e.source = nodeId
    · rw [if_pos h1] at hres
      by_cases h2 : e.target ∈ visited
      · rw [if_pos h2] at hres
        by_cases h3 : e.target ∈ nodeId :: rs0
        · rw [if_pos h3] at hres
          rcases hres with ⟨hfalse, _⟩
        · rw [if_neg h3] at hres
          refine ih nodeId visited rs0
            (fun x hx => hsub x (List.mem_cons_of_mem e hx))
            hnv hrs hvU hfuel hcl hac ?_ v2 hres
          intro e2 he2 hsrc2
          rcases hproc e2 he2 hsrc2 with h | h
          · rcases List.mem_cons.mp h with h4 | h4
            · subst h4
              exact Or.inr ⟨h2, h3⟩
            · exact Or.inl h4
          · exact Or.inr h
      · rw [if_neg h2] at hres
        rcases hrec : hasCycle edges fuel e.target visited (nodeId :: rs0)
          with ⟨b, v⟩
        rw [hrec] at hres
        cases b
        · have hpost := hH e.target visited (nodeId :: rs0)
            (hT e (hsub e (List.mem_cons_self e rest))) h2
            (fun x hx => by
              rcases List.mem_cons.mp hx with h4 | h4
              · rw [h4]; exact hnv
              · exact hrs x h4)
            hvU (by omega) hcl hac v hrec
          rcases hpost with ⟨hmono, htv, hvU2, hcl2, hac2⟩
          have hfuel2 : missCount U v + 1 ≤ fuel := by
            have := missCount_mono U visited v hmono
            omega
          have hres2 := ih nodeId v rs0
            (fun x hx => hsub x (List.mem_cons_of_mem e hx))
            (hmono nodeId hnv) (fun x hx => hmono x (hrs x hx)) hvU2 hfuel2
            hcl2 hac2 ?_ v2 hres
          · rcases hres2 with ⟨ha, hb, hc2, hd, he2⟩
            exact ⟨fun x hx => ha x (hmono x hx), hb, hc2, hd, he2⟩
          · intro e2 he2 hsrc2
            rcases hproc e2 he2 hsrc2 with h | h
            · rcases List.mem_cons.mp h with h4 | h4
              · subst h4
                refine Or.inr ⟨htv, ?_⟩
                intro hmem
                rcases List.mem_cons.mp hmem with h5 | h5
                · rw [h5] at h2; exact h2 hnv
                · exact h2 (hrs _ h5)
              · exact Or.inl h4
            · exact Or.inr ⟨hmono _ h.1, h.2⟩
        · rcases hres with ⟨hfalse, _⟩
    · rw [if_neg h1] at hres
      refine ih nodeId visited rs0
        (fun x hx => hsub x (List.mem_cons_of_mem e hx))
        hnv hrs hvU hfuel hcl hac ?_ v2 hres
      intro e2 he2 hsrc2
      rcases hproc e2 he2 hsrc2 with h | h
      · rcases List.mem_cons.mp h with h4 | h4
        · subst h4
          exact absurd hsrc2 h1
        · exact Or.inl h4
      · exact Or.inr h

/-- `has_cycle` explores everything reachable from its start node: the
completeness invariant. -/
theorem hasCycle_complete (edges : List OEdge) (U : List String)
    (hT : ∀ e ∈ edges, e.target ∈ U) :
    ∀ fuel, hasCyclePost edges U fuel := by
  intro fuel
  induction fuel with
  | zero =>
    intro nodeId visited rs _ _ _ _ hfuel _ _ v _
    omega
  | succ f ih =>
    intro nodeId visited rs hU hnv hrs hvU hfuel hcl hac v hres
    simp only [hasCycle] at hres
    have hlt := missCount_cons_lt U nodeId visited hU hnv
    have hpost := cycleEdgeLoop_complete edges U hT f ih edges nodeId
      (nodeId :: visited) rs (fun e he => he)
      (List.mem_cons_self nodeId visited)
      (fun x hx => List.mem_cons_of_mem nodeId (hrs x hx))
      (fun x hx => by
        rcases List.mem_cons.mp hx with h | h
        · rw [h]; exact hU
        · exact hvU x h)
      (by omega)
      (by
        intro e he hsv hsr
        have hsne : e.source ≠ nodeId := fun h => hsr (h ▸ List.mem_cons_self _ _)
        have hsv2 : e.source ∈ visited := by
          rcases List.mem_cons.mp hsv with h | h
          · exact absurd h hsne
          · exact h
        have hsr2 : e.source ∉ rs := fun h => hsr (List.mem_cons_of_mem nodeId h)
        rcases hcl e he hsv2 hsr2 with ⟨htv, htr⟩
        refine ⟨List.mem_cons_of_mem nodeId htv, ?_⟩
        intro hmem
        rcases List.mem_cons.mp hmem with h | h
        · rw [h] at htv; exact hnv htv
        · exact htr h)
      (by
        intro c hcv hcr
        have hcne : c ≠ nodeId := fun h => hcr (h ▸ List.mem_cons_self _ _)
        have hcv2 : c ∈ visited := by
          rcases List.mem_cons.mp hcv with h | h
          · exact absurd h hcne
          · exact h
        exact hac c hcv2 (fun h => hcr (List.mem_cons_of_mem nodeId h)))
      (fun e he hsrc => Or.inl he)
      v hres
    rcases hpost with ⟨hmono, hvU2, hcl2, hac2, hout⟩
    refine ⟨fun x hx => hmono x (List.mem_cons_of_mem nodeId hx),
      hmono nodeId (List.mem_cons_self nodeId visited), hvU2, ?_, ?_⟩
    · intro e he hsv hsr
      by_cases hs : e.source = nodeId
      · rcases hout e he hs with ⟨htv, htr⟩
        exact ⟨htv, fun h => htr (List.mem_cons_of_mem nodeId h)⟩
      · rcases hcl2 e he hsv (by
          intro hmem
          rcases List.mem_cons.mp hmem with h | h
          · exact hs h
          · exact hsr h) with ⟨htv, htr⟩
        exact ⟨htv, fun h => htr (List.mem_cons_of_mem nodeId h)⟩
    · intro c hcv hcr hcyc
      by_cases hc : c = nodeId
      · subst hc
        rcases (Relation.TransGen.head'_iff).mp hcyc with ⟨b, hstep, hwalk⟩
        rcases hstep with ⟨e, he, hsrc, htgt⟩
        rcases hout e he hsrc with ⟨htv, htr⟩
        rw [htgt] at htv htr
        rcases reach_stays_finished edges v (c :: rs) hcl2 b c hwalk htv htr
          with ⟨_, hnr⟩
        exact hnr (List.mem_cons_self c rs)
      · exact hac2 c hcv (by
          intro hmem
          rcases List.mem_cons.mp hmem with h | h
          · exact hc h
          · exact hcr h) hcyc

/-- The outer traversal, run to completion without a detection, leaves a
closed acyclic visited set covering all start ids. -/
theorem cycleOuter_complete (edges : List OEdge) (U : List String)
    (hT : ∀ e ∈ edges, e.target ∈ U) (fuel : Nat) :
    ∀ (ids visited : List String),
      (∀ x ∈ ids, x ∈ U) → (∀ x ∈ visited, x ∈ U) →
      missCount U visited + 1 ≤ fuel →
      finishedClosed edges visited [] → finishedAcyclic edges visited [] →
      cycleOuter edges fuel ids visited = false →
      ∃ v2, (∀ x ∈ ids, x ∈ v2) ∧ (∀ x ∈ visited, x ∈ v2)
        ∧ finishedClosed edges v2 [] ∧ finishedAcyclic edges v2 [] := by
  intro ids
  induction ids with
  | nil =>
    intro visited _ _ _ hcl hac _
    exact ⟨visited, fun x hx => absurd hx (List.not_mem_nil x),
      fun x hx => hx, hcl, hac⟩
  | cons nid rest ih =>
    intro visited hidU hvU hfuel hcl hac hres
    simp only [cycleOuter] at hres
    by_cases hv : nid ∈ visited
    · rw [if_pos hv] at hres
      rcases ih visited (fun x hx => hidU x (List.mem_cons_of_mem nid hx))
        hvU hfuel hcl hac hres with ⟨v2, h1, h2, h3, h4⟩
      refine ⟨v2, ?_, h2, h3, h4⟩
      intro x hx
      rcases List.mem_cons.mp hx with h | h
      · rw [h]; exact h2 nid hv
      · exact h1 x h
    · rw [if_neg hv] at hres
      rcases hrec : hasCycle edges fuel nid visited [] with ⟨b, v⟩
      rw [hrec] at hres
      cases b
      · have hpost := hasCycle_complete edges U hT fuel nid visited []
          (hidU nid (List.mem_cons_self nid rest)) hv
          (fun x hx => absurd hx (List.not_mem_nil x)) hvU hfuel hcl hac v hrec
        rcases hpost with ⟨hmono, hnidv, hvU2, hcl2, hac2⟩
        have hfuel2 : missCount U v + 1 ≤ fuel := by
          have := missCount_mono U visited v hmono
          omega
        rcases ih v (fun x hx => hidU x (List.mem_cons_of_mem nid hx))
          hvU2 hfuel2 hcl2 hac2 hres with ⟨v2, h1, h2, h3, h4⟩
        refine ⟨v2, ?_, fun x hx => h2 x (hmono x hx), h3, h4⟩
        intro x hx
        rcases List.mem_cons.mp hx with h | h
        · rw [h]; exact h2 nid hnidv
        · exact h1 x h
      · cases hres

/-- With every edge source among the listed node ids, a cycle in the edge
relation forces the bounded traversal to detect it. -/
theorem cycleOuter_detects (g : OGraph)
    (hsrc : ∀ e ∈ g.edges, e.source ∈ g.nodes.map (fun n => n.id))
    (hcyc : ∃ c, Relation.TransGen (edgeStepR g.edges) c c) :
    cycleOuter g.edges ((allIds g).length + 1)
      (g.nodes.map (fun n => n.id)) [] = true := by
  rcases hb : cycleOuter g.edges ((allIds g).length + 1)
      (g.nodes.map (fun n => n.id)) [] with _ | _
  · exfalso
    have hT : ∀ e ∈ g.edges, e.target ∈ allIds g := by
      intro e he
      exact List.mem_append_right _ (List.mem_map.mpr ⟨e, he, rfl⟩)
    have hfuel : missCount (allIds g) [] + 1 ≤ (allIds g).length + 1 := by
      have := List.countP_le_length
        (p := fun x => decide (x ∉ ([] : List String))) (l := allIds g)
      simp only [missCount]
      omega
    rcases cycleOuter_complete g.edges (allIds g) hT ((allIds g).length + 1)
      (g.nodes.map (fun n => n.id)) []
      (fun x hx => List.mem_append_left _ hx)
      (fun x hx => absurd hx (List.not_mem_nil x))
      hfuel
      (fun e _ h _ => absurd h (List.not_mem_nil _))
      (fun c h _ => absurd h (List.not_mem_nil c))
      hb with ⟨v2, hids, _, _, hac⟩
    rcases hcyc with ⟨c, hc⟩
    rcases (Relation.TransGen.head'_iff).mp hc with ⟨b2, hstep, _⟩
    rcases hstep with ⟨e, he, hesrc, _⟩
    have hcn : c ∈ g.nodes.map (fun n => n.id) := by
      rw [← hesrc]; exact hsrc e he
    exact hac c (hids c hcn) (List.not_mem_nil c) hc
  · exact hb

/-! ### Cycle detection: the reported error -/

/-- Appending keeps the head of a nonempty left string. -/
theorem string_head_append (a b : String) (c : Char)
    (h : a.data.head? = some c) : (a ++ b).data.head? = some c := by
  rw [String.data_append]
  rcases ha : a.data with _ | ⟨x, xs⟩
  · rw [ha] at h
    cases h
  · rw [ha] at h
    simp only [List.head?_cons, Option.some.injEq] at h
    simp [h]

/-- Two strings with different first characters differ. -/
theorem string_ne_of_head (s t : String) (c d : Char)
    (hs : s.data.head? = some c) (ht : t.data.head? = some d) (hcd : c ≠ d) :
    s ≠ t := by
  intro h
  subst h
  rw [hs] at ht
  exact hcd (by simpa using ht)

/-- The empty-orchestration error is not the cycle error. -/
theorem circular_notin_noNodes (g : OGraph) :
    "Circular dependency detected in orchestration graph"
      ∉ (if g.nodes.isEmpty then ["Orchestration has no nodes"] else []) := by
  by_cases h : g.nodes.isEmpty = true
  · rw [if_pos h]
    intro hmem
    rcases List.mem_singleton.mp hmem with heq
    exact string_ne_of_head "Circular dependency detected in orchestration graph"
      "Orchestration has no nodes" 'C' 'O' rfl rfl (by decide) heq
  · rw [if_neg h]
    exact List.not_mem_nil _

/-- The entry-node errors are not the cycle error. -/
theorem circular_notin_entry (entry : Option String) (ids : List String) :
    "Circular dependency detected in orchestration graph"
      ∉ (entryCheck entry ids).1 := by
  intro hmem
  match entry with
  | none => simp [entryCheck] at hmem
  | some e =>
    simp only [entryCheck] at hmem
    by_cases h1 : e = ""
    · simp [h1] at hmem
    · simp only [h1, if_false, ite_false] at hmem
      split at hmem
      · simp at hmem
      · rcases List.mem_singleton.mp hmem with heq
        exact string_ne_of_head "Circular dependency detected in orchestration graph"
          ("Entry node '" ++ e ++ "' not found in nodes") 'C' 'E' rfl
          (string_head_append ("Entry node '" ++ e) "' not found in nodes" 'E'
            (string_head_append "Entry node '" e 'E' rfl))
          (by decide) heq

/-- The dangling-edge errors are not the cycle error. -/
theorem circular_notin_edgeRef (g : OGraph) :
    "Circular dependency detected in orchestration graph" ∉ edgeRefErrors g := by
  intro hmem
  simp only [edgeRefErrors, List.mem_flatten, List.mem_map] at hmem
  rcases hmem with ⟨l, ⟨e, he, hl⟩, hmem⟩
  rw [← hl] at hmem
  rcases List.mem_append.mp hmem with h | h
  · split at h
    · cases h
    · rcases List.mem_singleton.mp h with heq
      exact string_ne_of_head "Circular dependency detected in orchestration graph"
        ("Edge source '" ++ e.source ++ "' not found in nodes") 'C' 'E' rfl
        (string_head_append ("Edge source '" ++ e.source) "' not found in nodes" 'E'
          (string_head_append "Edge source '" e.source 'E' rfl))
        (by decide) heq
  · split at h
    · cases h
    · rcases List.mem_singleton.mp h with heq
      exact string_ne_of_head "Circular dependency detected in orchestration graph"
        ("Edge target '" ++ e.target ++ "' not found in nodes") 'C' 'E' rfl
        (string_head_append ("Edge target '" ++ e.target) "' not found in nodes" 'E'
          (string_head_append "Edge target '" e.target 'E' rfl))
        (by decide) heq

/-- The agent-reference errors are not the cycle error. -/
theorem circular_notin_agentRef (g : OGraph) (agentExists : String → Bool) :
    "Circular dependency detected in orchestration graph"
      ∉ agentRefErrors g agentExists := by
  intro hmem
  simp only [agentRefErrors, List.mem_flatten, List.mem_map] at hmem
  rcases hmem with ⟨l, ⟨n, hn, hl⟩, hmem⟩
  rw [← hl] at hmem
  split at hmem
  · split at hmem
    · rename_i aid haid
      split at hmem
      · rcases List.mem_singleton.mp hmem with heq
        exact string_ne_of_head "Circular dependency detected in orchestration graph"
          ("Agent '" ++ aid ++ "' referenced in node '" ++ n.id ++ "' not found")
          'C' 'A' rfl
          (string_head_append
            ("Agent '" ++ aid ++ "' referenced in node '" ++ n.id) "' not found" 'A'
            (string_head_append ("Agent '" ++ aid ++ "' referenced in node '") n.id 'A'
              (string_head_append ("Agent '" ++ aid) "' referenced in node '" 'A'
                (string_head_append "Agent '" aid 'A' rfl))))
          (by decide) heq
      · cases hmem
    · cases hmem
  · cases hmem

/-- Only the cycle rule can contribute the cycle error to the error list. -/
theorem count_circular (g : OGraph) (agentExists : String → Bool) :
    ((validateOrchestration g agentExists).errors).count
        "Circular dependency detected in orchestration graph"
      = (cycleErrors g).count
          "Circular dependency detected in orchestration graph" := by
  show ((if g.nodes.isEmpty then ["Orchestration has no nodes"] else [])
      ++ (entryCheck g.entryNode (g.nodes.map (fun n => n.id))).1
      ++ edgeRefErrors g ++ cycleErrors g
      ++ agentRefErrors g agentExists).count
        "Circular dependency detected in orchestration graph"
      = (cycleErrors g).count "Circular dependency detected in orchestration graph"
  rw [List.count_append, List.count_append, List.count_append, List.count_append]
  rw [List.count_eq_zero.mpr (circular_notin_noNodes g),
    List.count_eq_zero.mpr (circular_notin_entry g.entryNode
      (g.nodes.map (fun n => n.id))),
    List.count_eq_zero.mpr (circular_notin_edgeRef g),
    List.count_eq_zero.mpr (circular_notin_agentRef g agentExists)]
  omega

/-- The cycle rule contributes the error exactly once on detection, never
otherwise. -/
theorem count_cycleErrors (g : OGraph) :
    (cycleErrors g).count "Circular dependency detected in orchestration graph"
      = if cycleOuter g.edges ((allIds g).length + 1)
            (g.nodes.map (fun n => n.id)) [] = true
        then 1 else 0 := by
  rw [cycleErrors]
  split
  · simp
  · simp

/-- `C8` (amended): when every edge source references a listed node, the
edge relation has a cycle iff the validator reports
`Circular dependency detected in orchestration graph` exactly once, and a
cyclic graph is judged invalid; an acyclic graph never draws the cycle
error, with no side condition.  Without the side condition the claim
fails: a cycle among dangling ids is never traversed. -/
theorem c8_cycle_detection (g : OGraph) (agentExists : String → Bool) :
    ((∀ e ∈ g.edges, e.source ∈ g.nodes.map (fun n => n.id)) →
        ((∃ c, Relation.TransGen (edgeStepR g.edges) c c) ↔
          ((validateOrchestration g agentExists).errors).count
            "Circular dependency detected in orchestration graph" = 1))
      ∧ ((¬ ∃ c, Relation.TransGen (edgeStepR g.edges) c c) →
          "Circular dependency detected in orchestration graph"
            ∉ (validateOrchestration g agentExists).errors)
      ∧ ((∃ c, Relation.TransGen (edgeStepR g.edges) c c) →
          (∀ e ∈ g.edges, e.source ∈ g.nodes.map (fun n => n.id)) →
          (validateOrchestration g agentExists).valid = false) := by
  have hcount := count_circular g agentExists
  have hone := count_cycleErrors g
  refine ⟨?_, ?_, ?_⟩
  · intro hsrc
    constructor
    · intro h
      rw [hcount, hone, if_pos (cycleOuter_detects g hsrc h)]
    · intro h
      rw [hcount, hone] at h
      by_cases hb : cycleOuter g.edges ((allIds g).length + 1)
          (g.nodes.map (fun n => n.id)) [] = true
      · exact cycleOuter_sound g.edges _ _ _ hb
      · rw [if_neg hb] at h
        cases h
  · intro hno
    apply List.count_eq_zero.mp
    have hb : ¬ cycleOuter g.edges ((allIds g).length + 1)
        (g.nodes.map (fun n => n.id)) [] = true :=
      fun hb => hno (cycleOuter_sound g.edges _ _ _ hb)
    rw [hcount, hone, if_neg hb]
  · intro h hsrc
    have h1 : ((validateOrchestration g agentExists).errors).count
        "Circular dependency detected in orchestration graph" = 1 := by
      rw [hcount, hone, if_pos (cycleOuter_detects g hsrc h)]
    have hmem : "Circular dependency detected in orchestration graph"
        ∈ (validateOrchestration g agentExists).errors := by
      by_contra hn
      rw [List.count_eq_zero.mpr hn] at h1
      cases h1
    rcases herrs : (validateOrchestration g agentExists).errors with _ | ⟨x, xs⟩
    · rw [herrs] at hmem
      cases hmem
    · have hv : (validateOrchestration g agentExists).valid
          = ((validateOrchestration g agentExists).errors).isEmpty := rfl
      rw [hv, herrs]
      rfl

/-- `C8` counterexample: the edge relation of `c8DanglingGraph` has the
cycle `x → y → x`, but neither id is a listed node, so the traversal —
which starts only from listed nodes — never reaches it and the cycle error
is not reported. -/
theorem c8_unreachable_cycle_counterexample :
    (∃ c, Relation.TransGen (edgeStepR c8DanglingGraph.edges) c c)
      ∧ "Circular dependency detected in orchestration graph"
          ∉ (validateOrchestration c8DanglingGraph (fun _ => true)).errors := by
  constructor
  · exact ⟨"x", Relation.TransGen.tail
      (Relation.TransGen.single
        (show edgeStepR c8DanglingGraph.edges "x" "y" from
          ⟨{ source := "x", target := "y" }, List.mem_cons_self _ _, rfl, rfl⟩))
      (show edgeStepR c8DanglingGraph.edges "y" "x" from
        ⟨{ source := "y", target := "x" },
          List.mem_cons_of_mem _ (List.mem_cons_self _ _), rfl, rfl⟩)⟩
  · have herrs : (validateOrchestration c8DanglingGraph (fun _ => true)).errors
        = ["Edge source 'x' not found in nodes",
           "Edge target 'y' not found in nodes",
           "Edge source 'y' not found in nodes",
           "Edge target 'x' not found in nodes"] := by
      simp [validateOrchestration, c8DanglingGraph, entryCheck, edgeRefErrors,
        cycleErrors, cycleOuter, hasCycle, cycleEdgeLoop, agentRefErrors, allIds]
    rw [herrs]
    decide

/-- Witness for `c8_cycle_detection`: the listed two-node cycle `a → b → a`
draws the cycle error exactly once and invalidates the graph. -/
theorem c8_cycle_detection_witness :
    ((validateOrchestration c8CycleGraph (fun _ => true)).errors).count
        "Circular dependency detected in orchestration graph" = 1
      ∧ (validateOrchestration c8CycleGraph (fun _ => true)).valid = false := by
  have hsrc : ∀ e ∈ c8CycleGraph.edges,
      e.source ∈ c8CycleGraph.nodes.map (fun n => n.id) := by
    intro e he
    fin_cases he <;> simp [c8CycleGraph]
  have hcyc : ∃ c, Relation.TransGen (edgeStepR c8CycleGraph.edges) c c := by
    exact ⟨"a", Relation.TransGen.tail
      (Relation.TransGen.single
        (show edgeStepR c8CycleGraph.edges "a" "b" from
          ⟨{ source := "a", target := "b" }, List.mem_cons_self _ _, rfl, rfl⟩))
      (show edgeStepR c8CycleGraph.edges "b" "a" from
        ⟨{ source := "b", target := "a" },
          List.mem_cons_of_mem _ (List.mem_cons_self _ _), rfl, rfl⟩)⟩
  exact ⟨((c8_cycle_detection c8CycleGraph (fun _ => true)).1 hsrc).mp hcyc,
    (c8_cycle_detection c8CycleGraph (fun _ => true)).2.2 hcyc hsrc⟩

end VIF
